import Mathlib

/-!
Verification of the experiment-registration core of LocalMLManager.

The Python modules `expman/utils.py`, `expman/config_utils.py` and
`expman/experiment_profile.py` are shallowly embedded below.  Python dicts
are modelled as insertion-ordered association lists (`List (String × α)`);
dict assignment is `insertAssoc` (update in place, else append), matching
CPython semantics.  JSON-serializable Python values are modelled by `JValue`;
numeric scalars are carried as their literal token (`JValue.num "0.1"`),
which is faithful because the code never computes with config values, it
only compares, stores and serializes them.  `None` is `JValue.null`.

File layout: definitions first (string helpers, JValue, the embedded
functions, SHA-1, the id-card operations, the atomic-write protocol),
then the supporting lemmas, then one theorem per claim.
-/

set_option maxRecDepth 100000

namespace Expman

/-! ### String helpers (code-point based, as CPython str operations) -/

/-- Lexicographic comparison of char lists by code point, the order used by
Python `sorted` on `str` keys (relevant for `json.dumps(..., sort_keys=True)`). -/
def clLe : List Char → List Char → Bool
  | [], _ => true
  | _ :: _, [] => false
  | x :: xs, y :: ys =>
    if x.toNat < y.toNat then true
    else if y.toNat < x.toNat then false
    else clLe xs ys

def strLe (a b : String) : Bool := clLe a.data b.data

/-- Char-list version of Python `str.startswith`. -/
def isPreChars : List Char → List Char → Bool
  | [], _ => true
  | _ :: _, [] => false
  | x :: xs, y :: ys => x == y && isPreChars xs ys

/-- Python `big.startswith(small)` is `strStarts small big`. -/
def strStarts (small big : String) : Bool := isPreChars small.data big.data

/-- Python `s.endswith(suf)`; used to model the `**/*.ckpt` style globs. -/
def strEnds (s suf : String) : Bool := isPreChars suf.data.reverse s.data.reverse

/-- Python character slice `ck[len(k)+1:]` used by the prefix-fallback branch of
`config_summary`. -/
def sufAfter (k ck : String) : String := String.mk (ck.data.drop (k.data.length + 1))

/-- Python character slice `s[:n]` (`String.take` by code points). -/
def charTake (s : String) (n : Nat) : String := String.mk (s.data.take n)

def splitAux (sep : Char) : List Char → List Char → List String
  | [], acc => [String.mk acc.reverse]
  | c :: cs, acc =>
    if c = sep then String.mk acc.reverse :: splitAux sep cs []
    else splitAux sep cs (c :: acc)

/-- Python `key.split(".")`; notably `"".split(".") == [""]`. -/
def splitDot (s : String) : List String := splitAux '.' s.data []

/-- Key join of `flatten_dict`: `f"{parent}{sep}{k}" if parent else k`. -/
def joinKey (parent k : String) : String :=
  if parent = "" then k else parent ++ "." ++ k

def natDigitsAux : Nat → Nat → List Char
  | 0, _ => []
  | fuel + 1, n =>
    if n < 10 then [Char.ofNat (48 + n)]
    else natDigitsAux fuel (n / 10) ++ [Char.ofNat (48 + n % 10)]

/-- Decimal rendering of a natural number (Python `str(n)` for `n ≥ 0`). -/
def natStr (n : Nat) : String := String.mk (natDigitsAux (n + 1) n)

/-- Python format `f"{n:04d}"`: pad with zeros to at least 4 characters. -/
def pad4 (n : Nat) : String :=
  let s := natStr n
  if s.data.length < 4 then String.mk (List.replicate (4 - s.data.length) '0') ++ s else s

/-! ### JSON values and dict operations -/

/-- JSON-serializable Python values.  Object entries keep dict insertion order. -/
inductive JValue : Type where
  | null : JValue
  | bool : Bool → JValue
  | num : String → JValue
  | str : String → JValue
  | arr : List JValue → JValue
  | obj : List (String × JValue) → JValue

/-- Lookup in a Python dict (`part in cur` / `cur[part]`). -/
def assocFind {α : Type} : List (String × α) → String → Option α
  | [], _ => none
  | p :: t, k => if p.1 = k then some p.2 else assocFind t k

/-- Python dict assignment `d[k] = v`: replace in place if the key exists,
otherwise append at the end. -/
def insertAssoc {α : Type} (k : String) (v : α) : List (String × α) → List (String × α)
  | [] => [(k, v)]
  | p :: t => if p.1 = k then (k, v) :: t else p :: insertAssoc k v t

/-- Python `dict.update`: fold the assignments of `news` into `items`. -/
def updAll {α : Type} (items news : List (String × α)) : List (String × α) :=
  news.foldl (fun acc p => insertAssoc p.1 p.2 acc) items

def eraseKey {α : Type} (k : String) : List (String × α) → List (String × α)
  | [] => []
  | p :: t => if p.1 = k then eraseKey k t else p :: eraseKey k t

def keysOf {α : Type} (l : List (String × α)) : List String := l.map Prod.fst

/- Structural boolean equality on `JValue` (decidable equality is derived
from it below). -/
mutual
def jeq : JValue → JValue → Bool
  | JValue.null, JValue.null => true
  | JValue.bool a, JValue.bool b => a == b
  | JValue.num a, JValue.num b => a == b
  | JValue.str a, JValue.str b => a == b
  | JValue.arr a, JValue.arr b => jeqArr a b
  | JValue.obj a, JValue.obj b => jeqObj a b
  | _, _ => false
  termination_by structural j => j
def jeqArr : List JValue → List JValue → Bool
  | [], [] => true
  | x :: xs, y :: ys => jeq x y && jeqArr xs ys
  | _, _ => false
  termination_by structural l => l
def jeqObj : List (String × JValue) → List (String × JValue) → Bool
  | [], [] => true
  | p :: ps, q :: qs => p.1 == q.1 && jeq p.2 q.2 && jeqObj ps qs
  | _, _ => false
  termination_by structural l => l
end

/-- Induction over `JValue` that hands the inductive hypothesis to every
member of a nested list. -/
def JValue.myInd {P : JValue → Prop}
    (h0 : P JValue.null) (h1 : ∀ b, P (JValue.bool b)) (h2 : ∀ s, P (JValue.num s))
    (h3 : ∀ s, P (JValue.str s))
    (h4 : ∀ xs, (∀ x ∈ xs, P x) → P (JValue.arr xs))
    (h5 : ∀ l : List (String × JValue), (∀ p ∈ l, P p.2) → P (JValue.obj l)) :
    ∀ j, P j
  | JValue.null => h0
  | JValue.bool b => h1 b
  | JValue.num s => h2 s
  | JValue.str s => h3 s
  | JValue.arr xs => h4 xs (fun x hx => JValue.myInd h0 h1 h2 h3 h4 h5 x)
  | JValue.obj l => h5 l (fun p hp => JValue.myInd h0 h1 h2 h3 h4 h5 p.2)
  termination_by j => sizeOf j
  decreasing_by
  · have := List.sizeOf_lt_of_mem hx
    simp only [JValue.arr.sizeOf_spec]
    omega
  · have := List.sizeOf_lt_of_mem hp
    obtain ⟨a, b⟩ := p
    simp only [JValue.obj.sizeOf_spec, Prod.mk.sizeOf_spec] at *
    omega

/-- Induction over object entry lists that also descends into nested objects. -/
def nestedListInd {Q : List (String × JValue) → Prop} (hnil : Q [])
    (hcons : ∀ k v rest, (∀ l, v = JValue.obj l → Q l) → Q rest → Q ((k, v) :: rest)) :
    ∀ l, Q l
  | [] => hnil
  | (k, v) :: rest =>
      hcons k v rest (fun l hl => nestedListInd hnil hcons l) (nestedListInd hnil hcons rest)
  termination_by l => sizeOf l
  decreasing_by
  · subst hl
    simp only [List.cons.sizeOf_spec, Prod.mk.sizeOf_spec, JValue.obj.sizeOf_spec]
    omega
  · simp only [List.cons.sizeOf_spec]
    omega

/-! ### Sorting object keys (the effect of `json.dumps(..., sort_keys=True)`) -/

def keyLe (p q : String × JValue) : Bool := strLe p.1 q.1

def insPair (a : String × JValue) : List (String × JValue) → List (String × JValue)
  | [] => [a]
  | b :: l => if keyLe a b then a :: b :: l else b :: insPair a l

def sortPairs : List (String × JValue) → List (String × JValue)
  | [] => []
  | a :: l => insPair a (sortPairs l)

/- Canonical form of a value: every object's entries sorted by key (at all
depths).  `json.dumps(v, sort_keys=True)` prints exactly `canon v` in order. -/
mutual
def canon : JValue → JValue
  | JValue.null => JValue.null
  | JValue.bool b => JValue.bool b
  | JValue.num s => JValue.num s
  | JValue.str s => JValue.str s
  | JValue.arr xs => JValue.arr (canonArr xs)
  | JValue.obj l => JValue.obj (sortPairs (canonPairs l))
  termination_by structural j => j
def canonArr : List JValue → List JValue
  | [] => []
  | x :: xs => canon x :: canonArr xs
  termination_by structural l => l
def canonPairs : List (String × JValue) → List (String × JValue)
  | [] => []
  | p :: t => (p.1, canon p.2) :: canonPairs t
  termination_by structural l => l
end

/-- Recursive well-formedness: every object has pairwise distinct keys.
True of every value obtained from an actual Python dict. -/
def distinctKeysB : List String → Bool
  | [] => true
  | k :: t => !(t.contains k) && distinctKeysB t

mutual
def wf : JValue → Bool
  | JValue.arr xs => wfArr xs
  | JValue.obj l => distinctKeysB (keysOf l) && wfPairs l
  | _ => true
  termination_by structural j => j
def wfArr : List JValue → Bool
  | [] => true
  | x :: t => wf x && wfArr t
  termination_by structural l => l
def wfPairs : List (String × JValue) → Bool
  | [] => true
  | p :: t => wf p.2 && wfPairs t
  termination_by structural l => l
end

/-! ### config_utils.get_by_dot / utils.get_by_dot -/

/-- Loop body of `get_by_dot`: walk the already-split path.  A missing part
returns the default, which at every call site is `None` (`JValue.null`). -/
def getParts : JValue → List String → JValue
  | v, [] => v
  | JValue.obj l, p :: ps =>
      match assocFind l p with
      | some w => getParts w ps
      | none => JValue.null
  | _, _ :: _ => JValue.null

/-- `get_by_dot(d, key, default=None)` on a dict `d`.  The result conflates a
stored `None` with a missing key, exactly as in the source. -/
def get_by_dot (d : List (String × JValue)) (key : String) : JValue :=
  getParts (JValue.obj d) (splitDot key)

/-! ### utils.flatten_dict / experiment_profile.flatten_dict -/

/- Direct transcription of `flatten_dict`: `items` is the dict being built
(`items[new_key] = v` is `insertAssoc`, `items.update(..)` is `updAll`). -/
mutual
def flatEntries : String → List (String × JValue) → List (String × JValue) →
    List (String × JValue)
  | _, items, [] => items
  | parent, items, (k, v) :: rest => flatEntries parent (flatStep parent items k v) rest
  termination_by structural _ _ l => l
def flatStep (parent : String) (items : List (String × JValue)) (k : String) :
    JValue → List (String × JValue)
  | JValue.obj l => updAll items (flatEntries (joinKey parent k) [] l)
  | v => insertAssoc (joinKey parent k) v items
  termination_by structural v => v
end

def flatten_dict (d : List (String × JValue)) : List (String × JValue) :=
  flatEntries "" [] d

/- The flattening stream before dict collapse: the `(dotted key, leaf)` pairs
in traversal order, duplicates kept.  `flatten_dict` equals the dict built by
folding this stream; when the stream's keys are pairwise distinct the two
lists coincide (proved below). -/
mutual
def plainStream : List (String × JValue) → String → List (String × JValue)
  | [], _ => []
  | (k, v) :: rest, parent => plainEntry (joinKey parent k) v ++ plainStream rest parent
  termination_by structural l => l
def plainEntry (nk : String) : JValue → List (String × JValue)
  | JValue.obj l => plainStream l nk
  | v => [(nk, v)]
  termination_by structural v => v
end

def flatKeys (d : List (String × JValue)) : List String := keysOf (plainStream d "")

/-- For a keep path `k`: the suffixes `ck[len(k)+1:]` of the flattened keys
that start with `k`, in traversal order. -/
def sufKeys (d : List (String × JValue)) (k : String) : List String :=
  ((plainStream d "").filter (fun p => strStarts k p.1)).map (fun p => sufAfter k p.1)

/-! ### utils.config_summary / experiment_profile._selected_summary

The two functions are line-for-line identical (`config_summary` in utils.py,
`_selected_summary` in experiment_profile.py); both are embedded once here. -/

/-- Python `summary.setdefault(k, {})[suffix] = val`.  If `k` is present with a
non-dict value CPython would raise `TypeError`; that branch is unreachable from
`config_summary` (a key is never filled by both the exact and the fallback
branch in one run) and is modelled as a plain overwrite. -/
def sdSet (k suf : String) (v : JValue) (s : List (String × JValue)) :
    List (String × JValue) :=
  match assocFind s k with
  | some (JValue.obj inner) => insertAssoc k (JValue.obj (insertAssoc suf v inner)) s
  | _ => insertAssoc k (JValue.obj [(suf, v)]) s

/-- One iteration of the `for k in keep_keys` loop. -/
def summary_step (cfgd : List (String × JValue)) (acc : List (String × JValue))
    (k : String) : List (String × JValue) :=
  match get_by_dot cfgd k with
  | JValue.null =>
      (flatten_dict cfgd).foldl
        (fun a p => if strStarts k p.1 then sdSet k (sufAfter k p.1) p.2 a else a) acc
  | v => insertAssoc k v acc

/-- `config_summary(cfg, keep_keys)` on an already-plain dict
(`to_dict`/`to_plain_dict` is the identity on dicts). -/
def config_summary (cfgd : List (String × JValue)) (keep_keys : List String) : JValue :=
  match keep_keys with
  | [] => JValue.obj cfgd
  | _ => JValue.obj (keep_keys.foldl (summary_step cfgd) [])

/-! ### JSON serialization (json.dumps with default separators, ensure_ascii) -/

def hexDigit (n : Nat) : Char := Char.ofNat (if n < 10 then 48 + n else 87 + n)

def hex4 (n : Nat) : List Char :=
  [hexDigit (n / 4096 % 16), hexDigit (n / 256 % 16), hexDigit (n / 16 % 16), hexDigit (n % 16)]

/-- Escaping of one character in a JSON string, as CPython's
`json.encoder.py_encode_basestring_ascii`. -/
def escChar (c : Char) : List Char :=
  if c = '"' then ['\\', '"']
  else if c = '\\' then ['\\', '\\']
  else if c = '\n' then ['\\', 'n']
  else if c = '\r' then ['\\', 'r']
  else if c = '\t' then ['\\', 't']
  else if c.toNat = 8 then ['\\', 'b']
  else if c.toNat = 12 then ['\\', 'f']
  else if c.toNat < 32 ∨ 126 < c.toNat then
    if c.toNat < 65536 then '\\' :: 'u' :: hex4 c.toNat
    else
      let n := c.toNat - 65536
      '\\' :: 'u' :: hex4 (55296 + n / 1024) ++ '\\' :: 'u' :: hex4 (56320 + n % 1024)
  else [c]

def serStr (s : String) : String := String.mk ('"' :: s.data.flatMap escChar ++ ['"'])

/- Serialization with `json.dumps` default separators `", "` and `": "`,
printing object entries in list order (apply to `canon v` for `sort_keys=True`). -/
mutual
def ser : JValue → String
  | JValue.null => "null"
  | JValue.bool true => "true"
  | JValue.bool false => "false"
  | JValue.num lit => lit
  | JValue.str s => serStr s
  | JValue.arr xs => "[" ++ serArr xs ++ "]"
  | JValue.obj l => "\x7b" ++ serObj l ++ "\x7d"
  termination_by structural j => j
def serArr : List JValue → String
  | [] => ""
  | [x] => ser x
  | x :: y :: t => ser x ++ ", " ++ serArr (y :: t)
  termination_by structural l => l
def serObj : List (String × JValue) → String
  | [] => ""
  | [p] => serStr p.1 ++ ": " ++ ser p.2
  | p :: q :: t => serStr p.1 ++ ": " ++ ser p.2 ++ ", " ++ serObj (q :: t)
  termination_by structural l => l
end

/-- `json.dumps(v, sort_keys=True, default=str)` for serializable values. -/
def dumps_sorted (v : JValue) : String := ser (canon v)

/-! ### SHA-1 (hashlib.sha1), executable over byte lists -/

def M32 : Nat := 4294967296

def rotl (n x : Nat) : Nat := ((x <<< n) ||| (x >>> (32 - n))) % M32

/-- UTF-8 encoding of one character (Python `str.encode("utf-8")`). -/
def utf8Bytes (c : Char) : List Nat :=
  let n := c.toNat
  if n < 128 then [n]
  else if n < 2048 then [192 ||| (n >>> 6), 128 ||| (n &&& 63)]
  else if n < 65536 then
    [224 ||| (n >>> 12), 128 ||| ((n >>> 6) &&& 63), 128 ||| (n &&& 63)]
  else
    [240 ||| (n >>> 18), 128 ||| ((n >>> 12) &&& 63), 128 ||| ((n >>> 6) &&& 63),
     128 ||| (n &&& 63)]

def strBytes (s : String) : List Nat := s.data.flatMap utf8Bytes

def be8 (n : Nat) : List Nat :=
  [n >>> 56 % 256, n >>> 48 % 256, n >>> 40 % 256, n >>> 32 % 256,
   n >>> 24 % 256, n >>> 16 % 256, n >>> 8 % 256, n % 256]

def sha1Pad (msg : List Nat) : List Nat :=
  msg ++ 128 :: List.replicate ((119 - msg.length % 64) % 64) 0 ++ be8 (8 * msg.length)

def chunksAux : Nat → List Nat → List (List Nat)
  | 0, _ => []
  | _, [] => []
  | fuel + 1, x :: rest => ((x :: rest).take 64) :: chunksAux fuel ((x :: rest).drop 64)

def bytesToWords : List Nat → List Nat
  | b0 :: b1 :: b2 :: b3 :: rest => (((b0 * 256 + b1) * 256 + b2) * 256 + b3) :: bytesToWords rest
  | _ => []

/-- Message-schedule extension; the word list is kept reversed so that
`w[i-3]`, `w[i-8]`, `w[i-14]`, `w[i-16]` are positions 2, 7, 13, 15. -/
def extendWords : Nat → List Nat → List Nat
  | 0, rws => rws
  | f + 1, rws =>
      extendWords f
        (rotl 1 (rws.getD 2 0 ^^^ rws.getD 7 0 ^^^ rws.getD 13 0 ^^^ rws.getD 15 0) :: rws)

def sha1F (i b c d : Nat) : Nat :=
  if i < 20 then (b &&& c) ||| ((4294967295 ^^^ b) &&& d)
  else if i < 40 then b ^^^ c ^^^ d
  else if i < 60 then (b &&& c) ||| (b &&& d) ||| (c &&& d)
  else b ^^^ c ^^^ d

def sha1K (i : Nat) : Nat :=
  if i < 20 then 1518500249
  else if i < 40 then 1859775393
  else if i < 60 then 2400959708
  else 3395469782

def sha1Rounds : Nat → List Nat → Nat × Nat × Nat × Nat × Nat → Nat × Nat × Nat × Nat × Nat
  | _, [], st => st
  | i, w :: ws, (a, b, c, d, e) =>
      sha1Rounds (i + 1) ws
        ((rotl 5 a + sha1F i b c d + e + sha1K i + w) % M32, a, rotl 30 b, c, d)

def sha1Chunk (st : Nat × Nat × Nat × Nat × Nat) (chunk : List Nat) :
    Nat × Nat × Nat × Nat × Nat :=
  let ws := (extendWords 64 (bytesToWords chunk).reverse).reverse
  match st, sha1Rounds 0 ws st with
  | (h0, h1, h2, h3, h4), (a, b, c, d, e) =>
      ((h0 + a) % M32, (h1 + b) % M32, (h2 + c) % M32, (h3 + d) % M32, (h4 + e) % M32)

def word4 (n : Nat) : List Nat := [n >>> 24 % 256, n >>> 16 % 256, n >>> 8 % 256, n % 256]

def byteHex (b : Nat) : List Char := [hexDigit (b / 16), hexDigit (b % 16)]

def sha1Bytes (msg : List Nat) : List Nat :=
  let padded := sha1Pad msg
  match (chunksAux padded.length padded).foldl sha1Chunk
      (1732584193, 4023233417, 2562383102, 271733878, 3285377520) with
  | (h0, h1, h2, h3, h4) => word4 h0 ++ word4 h1 ++ word4 h2 ++ word4 h3 ++ word4 h4

/-- `hashlib.sha1(s.encode("utf-8")).hexdigest()`. -/
def sha1Hex (s : String) : String := String.mk ((sha1Bytes (strBytes s)).flatMap byteHex)

/-! ### experiment_profile.ExperimentProfile: naming -/

/-- `ExperimentProfile._stable_hash`:
`hashlib.sha1(json.dumps(selected, sort_keys=True, default=str).encode()).hexdigest()[:hash_length]`. -/
def stable_hash (selected : JValue) (hash_length : Nat) : String :=
  charTake (sha1Hex (dumps_sorted selected)) hash_length

def digitsVal (ds : List Char) : Nat := ds.foldl (fun a c => 10 * a + (c.toNat - 48)) 0

/-- Extraction of the trailing integer: `re.match(r"exp_(\d+)", name)` takes the
maximal run of digits directly after the literal `exp_`. -/
def parseSeqNum (name : String) : Option Nat :=
  match name.data with
  | 'e' :: 'x' :: 'p' :: '_' :: rest =>
      match rest.takeWhile Char.isDigit with
      | [] => none
      | ds => some (digitsVal ds)
  | _ => none

/-- The `nums` list of `_next_sequential_name`: the trailing integers of the
child directories whose name matches the `exp_`-digits pattern. -/
def seqNums (child_dirs : List String) : List Nat := child_dirs.filterMap parseSeqNum

/-- The `next_num` of `_next_sequential_name`: `max(nums) + 1 if nums else 1`. -/
def seqNext (child_dirs : List String) : Nat :=
  match seqNums child_dirs with
  | [] => 1
  | nums => nums.foldl Nat.max 0 + 1

/-- `ExperimentProfile._next_sequential_name` over the names of the existing
child directories of the root: `f"exp_{next_num:04d}"`. -/
def next_sequential_name (child_dirs : List String) : String :=
  "exp_" ++ pad4 (seqNext child_dirs)

/-- Error taxonomy of the spec: `InvalidConfigurationError` models the
`ValueError("unknown id_mode: ...")` raise, `NotFoundError` the
`FileNotFoundError` raise. -/
inductive ExpError : Type where
  | invalidConfiguration : String → ExpError
  | notFound : String → ExpError
deriving DecidableEq

def exceptEqDec {e a : Type} [DecidableEq e] [DecidableEq a] : DecidableEq (Except e a)
  | Except.ok x, Except.ok y =>
      if h : x = y then Decidable.isTrue (by rw [h])
      else Decidable.isFalse (fun hh => h (Except.ok.inj hh))
  | Except.error x, Except.error y =>
      if h : x = y then Decidable.isTrue (by rw [h])
      else Decidable.isFalse (fun hh => h (Except.error.inj hh))
  | Except.ok _, Except.error _ => Decidable.isFalse (fun hh => Except.noConfusion hh)
  | Except.error _, Except.ok _ => Decidable.isFalse (fun hh => Except.noConfusion hh)

instance : DecidableEq (Except ExpError String) := exceptEqDec

/-- Ambient inputs of name generation: the existing child-directory names of
the experiment root, `datetime.now().strftime("%Y%m%d_%H%M%S")`, and
`uuid.uuid4().hex`. -/
structure NameCtx : Type where
  child_dirs : List String
  now_str : String
  uuid_hex : String

/-- `ExperimentProfile.generate_exp_name`, with the mode dispatch in source
order; the final `else` is the `raise ValueError(f"unknown id_mode: ...")`. -/
def generate_exp_name (id_mode : String) (hash_length : Nat) (ctx : NameCtx)
    (selected_summary : JValue) : Except ExpError String :=
  if id_mode = "sequential" then Except.ok (next_sequential_name ctx.child_dirs)
  else if id_mode = "timestamp" then Except.ok ("exp_" ++ ctx.now_str)
  else if id_mode = "hash" then Except.ok ("exp_" ++ stable_hash selected_summary hash_length)
  else if id_mode = "uuid" then Except.ok ("exp_" ++ charTake ctx.uuid_hex hash_length)
  else Except.error (ExpError.invalidConfiguration ("unknown id_mode: " ++ id_mode))

/-! ### experiment_profile: artifact discovery -/

/-- One filesystem entry under the experiment directory: directory components
of the parent, final name, modification time, and whether it is a regular
file (`p.is_file()`); directories have `is_file = false`. -/
structure Entry : Type where
  comps : List String
  name : String
  mtime : Nat
  is_file : Bool
deriving DecidableEq

def entryPath (e : Entry) : String := e.comps.foldr (fun c acc => c ++ "/" ++ acc) e.name

/-- Stable descending insertion by mtime: Python `list.sort(key=mtime,
reverse=True)` keeps the original order of entries with equal mtime. -/
def insDesc (a : Entry) : List Entry → List Entry
  | [] => [a]
  | b :: l => if b.mtime ≤ a.mtime then a :: b :: l else b :: insDesc a l

def sortDesc : List Entry → List Entry
  | [] => []
  | a :: l => insDesc a (sortDesc l)

/-- The `found` list of `find_checkpoints`: glob `**/*.ckpt`, `**/*.pt`,
`**/*.pth` (files at any depth, collected pattern by pattern). -/
def ckptMatches (entries : List Entry) : List Entry :=
  (entries.filter fun e => e.is_file && strEnds e.name ".ckpt")
    ++ (entries.filter fun e => e.is_file && strEnds e.name ".pt")
    ++ (entries.filter fun e => e.is_file && strEnds e.name ".pth")

/-- `find_checkpoints`: the matches sorted by mtime, newest first. -/
def find_checkpoints (entries : List Entry) : List String :=
  (sortDesc (ckptMatches entries)).map entryPath

/-- `find_wandb_dir`: the top-level directory literally named `wandb` if it
exists, else the first directory at any depth whose name starts with `wandb`
(glob `**/wandb*`), else `None`. -/
def find_wandb_dir (entries : List Entry) : Option String :=
  if entries.any (fun e => !e.is_file && e.comps.isEmpty && e.name == "wandb") then
    some "wandb"
  else
    match entries.find? (fun e => !e.is_file && strStarts "wandb" e.name) with
    | some e => some (entryPath e)
    | none => none

/-! ### experiment_profile: the id card -/

/-- The fields of `ExperimentProfile` (experiment_profile.py). -/
structure ExperimentProfile : Type where
  description : String := ""
  keep_keys : List String := []
  id_mode : String := "hash"
  hash_length : Nat := 8
  include_meta : Bool := true
  tags : List String := []
  extra_files : List String := []
  id_card_name : String := "id_card.json"

/-- The `extra_found` dict of `create_id_card`: one entry per glob pattern
with at least one match.  Glob matching itself is I/O and is supplied as the
predicate `globFn`. -/
def extraFound (globFn : String → Entry → Bool) (entries : List Entry)
    (pats : List String) : List (String × JValue) :=
  pats.foldl
    (fun acc pat =>
      match entries.filter (globFn pat) with
      | [] => acc
      | fs => insertAssoc pat (JValue.arr (fs.map (fun e => JValue.str (entryPath e)))) acc)
    []

/-- The `files` section assembled by `create_id_card` (checkpoints/best, then
wandb, then extra, each only when discovery is non-empty). -/
def buildFiles (globFn : String → Entry → Bool) (entries : List Entry)
    (extra_files : List String) : List (String × JValue) :=
  (match find_checkpoints entries with
    | [] => []
    | c :: cs => [("checkpoints", JValue.arr ((c :: cs).map JValue.str)), ("best", JValue.str c)])
  ++ (match find_wandb_dir entries with
    | some w => [("wandb", JValue.str w)]
    | none => [])
  ++ (match extraFound globFn entries extra_files with
    | [] => []
    | ex => [("extra", JValue.obj ex)])

/-- The record dict assembled by `ExperimentProfile.create_id_card` right
before it is serialized.  Ambient-environment inputs (clock, user, host, git)
enter as parameters: `created_at` is `datetime.now().isoformat()` and `meta`
is the environment snapshot built when `include_meta` is true. -/
def create_id_card_entries (p : ExperimentProfile) (cfgd : List (String × JValue))
    (exp_dir_name : String) (entries : List Entry) (created_at : String)
    (meta : List (String × JValue)) (globFn : String → Entry → Bool) :
    List (String × JValue) :=
    [("id", JValue.str exp_dir_name),
     ("stable_hash", JValue.str (stable_hash (config_summary cfgd p.keep_keys) p.hash_length)),
     ("created_at", JValue.str created_at),
     ("description", JValue.str p.description),
     ("profile", JValue.obj
       [("keep_keys", JValue.arr (p.keep_keys.map JValue.str)),
        ("id_mode", JValue.str p.id_mode),
        ("hash_length", JValue.num (natStr p.hash_length)),
        ("tags", JValue.arr (p.tags.map JValue.str)),
        ("extra_files", JValue.arr (p.extra_files.map JValue.str))]),
     ("selected_fields", config_summary cfgd p.keep_keys),
     ("files", JValue.obj (buildFiles globFn entries p.extra_files)),
     ("meta", JValue.obj (if p.include_meta then meta else []))]

def create_id_card_record (p : ExperimentProfile) (cfgd : List (String × JValue))
    (exp_dir_name : String) (entries : List Entry) (created_at : String)
    (meta : List (String × JValue)) (globFn : String → Entry → Bool) : JValue :=
  JValue.obj (create_id_card_entries p cfgd exp_dir_name entries created_at meta globFn)

/-- `id_card.setdefault("files", {})` followed by assignments into the files
dict: `upd` is applied to the current files entries ( `{}` if absent).  An
existing non-dict `files` value would raise `TypeError` in Python; it cannot
occur for records this system writes and is modelled as starting from `{}`. -/
def setFiles (l : List (String × JValue)) (upd : List (String × JValue) → List (String × JValue)) :
    List (String × JValue) :=
  insertAssoc "files"
    (JValue.obj (upd (match assocFind l "files" with
      | some (JValue.obj fl) => fl
      | _ => []))) l

/-- `ExperimentProfile.update_id_card_with_artifacts`, record level: the loaded
record with the refreshed artifact entries written into its `files` dict.
A non-object record cannot come out of `json.load` of a record this system
writes; that case is returned unchanged. -/
def update_id_card_with_artifacts (record : JValue) (entries : List Entry) : JValue :=
  match record with
  | JValue.obj l =>
      let l1 := match find_checkpoints entries with
        | [] => l
        | c :: cs =>
            setFiles l (fun fl =>
              insertAssoc "best" (JValue.str c)
                (insertAssoc "checkpoints" (JValue.arr ((c :: cs).map JValue.str)) fl))
      let l2 := match find_wandb_dir entries with
        | some w => setFiles l1 (fun fl => insertAssoc "wandb" (JValue.str w) fl)
        | none => l1
      JValue.obj l2
  | v => v

/-- `create_id_card` with `update_after`: the record is written, then
`update_id_card_with_artifacts` re-reads it and rewrites it against the
directory contents at refresh time (`entries_at_update`), and the method
returns `id_card` — the pre-refresh snapshot.  Result: (returned value,
final on-disk record). -/
def create_id_card_run (p : ExperimentProfile) (cfgd : List (String × JValue))
    (exp_dir_name : String) (entries_at_scan entries_at_update : List Entry)
    (created_at : String) (meta : List (String × JValue))
    (globFn : String → Entry → Bool) (update_after : Bool) : JValue × JValue :=
  let card := create_id_card_record p cfgd exp_dir_name entries_at_scan created_at meta globFn
  (card, if update_after then update_id_card_with_artifacts card entries_at_update else card)

def recordLookup (j : JValue) (k : String) : Option JValue :=
  match j with
  | JValue.obj l => assocFind l k
  | _ => none

/-- Lookup of one artifact category inside the `files` section of a record. -/
def filesFind (j : JValue) (k : String) : Option JValue :=
  match recordLookup j "files" with
  | some (JValue.obj fl) => assocFind fl k
  | _ => none

/-! ### The atomic-write protocol (create_id_card step 5, update step) -/

/-- Filesystem writes issued by the two record writers. -/
inductive FsOp : Type where
  | write : String → String → FsOp
  | rename : String → String → FsOp

def applyOp (fs : List (String × String)) : FsOp → List (String × String)
  | FsOp.write p c => insertAssoc p c fs
  | FsOp.rename src dst =>
      match assocFind fs src with
      | some c => insertAssoc dst c (eraseKey src fs)
      | none => fs

def runOps (fs : List (String × String)) (ops : List FsOp) : List (String × String) :=
  ops.foldl applyOp fs

/-- String prefix (a partially flushed file holds a prefix of the intended
content). -/
def strPre (a b : String) : Prop := ∃ t, a ++ t = b

/-- States observable if execution stops anywhere inside the op sequence:
after any op prefix, or additionally with the upcoming write applied
partially. -/
def crashStates (fs0 : List (String × String)) (ops : List FsOp)
    (fs : List (String × String)) : Prop :=
  (∃ k, fs = runOps fs0 (ops.take k)) ∨
  (∃ k p c c', ops.get? k = some (FsOp.write p c) ∧ strPre c' c ∧
    fs = insertAssoc p c' (runOps fs0 (ops.take k)))

/-- Temp name used by `create_id_card`: `exp_dir / (self.id_card_name + ".tmp")`. -/
def create_tmp_name (id_card_name : String) : String := id_card_name ++ ".tmp"

/-- Index of the first `'.'` in a char list, if any. -/
def firstDotIdx : List Char → Option Nat
  | [] => none
  | c :: t => if c = '.' then some 0 else (firstDotIdx t).map (fun d => d + 1)

/-- Index of the last `'.'` in a char list, if any (Python `name.rfind('.')`
restricted to the found case). -/
def rfindDot (l : List Char) : Option Nat :=
  (firstDotIdx l.reverse).map (fun d => l.length - 1 - d)

/-- Length of CPython `PurePath.suffix` of a bare file name: from the last dot,
provided that dot is neither the first nor the last character. -/
def pySuffixLen (name : String) : Nat :=
  match rfindDot name.data with
  | some i => if 0 < i ∧ i < name.data.length - 1 then name.data.length - i else 0
  | none => 0

/-- CPython `Path(name).with_suffix(suf)` on a bare file name: drop the old
suffix (if any) and append `suf`. -/
def pyWithSuffix (name suf : String) : String :=
  String.mk (name.data.take (name.data.length - pySuffixLen name)) ++ suf

/-- Temp name used by `update_id_card_with_artifacts`:
`id_card_path.with_suffix(".json.tmp")`. -/
def update_tmp_name (id_card_name : String) : String :=
  pyWithSuffix id_card_name ".json.tmp"

/-- The write sequence of `create_id_card` step 5: dump to `tmp`, then
`tmp.replace(out)` (atomic `os.replace`). -/
def create_write_ops (id_card_name content : String) : List FsOp :=
  [FsOp.write (create_tmp_name id_card_name) content,
   FsOp.rename (create_tmp_name id_card_name) id_card_name]

/-- The write sequence of `update_id_card_with_artifacts`: dump to the
`.json.tmp` sibling, then `tmp.replace(id_card_path)`. -/
def update_write_ops (id_card_name content : String) : List FsOp :=
  [FsOp.write (update_tmp_name id_card_name) content,
   FsOp.rename (update_tmp_name id_card_name) id_card_name]

/-! ### Characterization helpers used by the C1 development -/

def innerOf (k : String) (s : List (String × JValue)) : List (String × JValue) :=
  match assocFind s k with
  | some (JValue.obj l) => l
  | _ => []

def canonPair (p : String × JValue) : String × JValue := (p.1, canon p.2)

/-- Invariant tying the two summary accumulators of a structurally-equal pair
of runs: identical up to canonicalizing the values, with duplicate-free keys
and duplicate-free nested-object keys. -/
def SummInv (s1 s2 : List (String × JValue)) : Prop :=
  s1.map canonPair = s2.map canonPair ∧
  (keysOf s1).Nodup ∧ (keysOf s2).Nodup ∧
  (∀ p ∈ s1, ∀ il, p.2 = JValue.obj il → (keysOf il).Nodup) ∧
  (∀ p ∈ s2, ∀ il, p.2 = JValue.obj il → (keysOf il).Nodup)

/-- Soundness of `jeqArr` relative to propositional equality, given pointwise
soundness of `jeq` on the members. -/
def jeqArrIff (xs : List JValue) (h : ∀ x ∈ xs, ∀ b, jeq x b = true ↔ x = b) :
    ∀ ys, jeqArr xs ys = true ↔ xs = ys := by
  induction xs with
  | nil => intro ys; cases ys <;> simp [jeqArr]
  | cons x xs ih =>
    intro ys
    cases ys with
    | nil => simp [jeqArr]
    | cons y ys =>
      have hx := h x (by simp) y
      have ht := ih (fun z hz => h z (by simp [hz])) ys
      simp [jeqArr, Bool.and_eq_true, hx, ht]

/-- Soundness of `jeqObj`, given pointwise soundness on the entry values. -/
def jeqObjIff (l : List (String × JValue)) (h : ∀ p ∈ l, ∀ b, jeq p.2 b = true ↔ p.2 = b) :
    ∀ m, jeqObj l m = true ↔ l = m := by
  induction l with
  | nil => intro m; cases m <;> simp [jeqObj]
  | cons p t ih =>
    intro m
    cases m with
    | nil => simp [jeqObj]
    | cons q u =>
      have hv := h p (by simp) q.2
      have ht := ih (fun z hz => h z (by simp [hz])) u
      constructor
      · intro hh
        simp only [jeqObj, Bool.and_eq_true, beq_iff_eq] at hh
        obtain ⟨⟨h1, h2⟩, h3⟩ := hh
        have : p = q := Prod.ext h1 (hv.mp h2)
        simp [this, ht.mp h3]
      · intro hh
        cases hh
        simp [jeqObj, hv.mpr rfl, ht.mpr rfl]

/-- `jeq` decides propositional equality. -/
def jeqIff : ∀ a b : JValue, jeq a b = true ↔ a = b := by
  intro a
  induction a using JValue.myInd with
  | h0 => intro b; cases b <;> simp [jeq]
  | h1 x => intro b; cases b <;> simp [jeq]
  | h2 x => intro b; cases b <;> simp [jeq]
  | h3 x => intro b; cases b <;> simp [jeq]
  | h4 xs ih =>
    intro b
    cases b <;> simp [jeq]
    exact jeqArrIff xs ih _
  | h5 l ih =>
    intro b
    cases b <;> simp [jeq]
    exact jeqObjIff l ih _

instance : DecidableEq JValue := fun a b => decidable_of_iff (jeq a b = true) (jeqIff a b)

/-! ## Lemmas: association lists -/

theorem assocFind_insert_self {α : Type} (k : String) (v : α) (l : List (String × α)) :
    assocFind (insertAssoc k v l) k = some v := by
  induction l with
  | nil => simp [insertAssoc, assocFind]
  | cons p t ih =>
    by_cases h : p.1 = k <;> simp [insertAssoc, assocFind, h, ih]

theorem assocFind_insert_ne {α : Type} (k : String) (v : α) (l : List (String × α))
    (k' : String) (h : k' ≠ k) : assocFind (insertAssoc k v l) k' = assocFind l k' := by
  have hk : ¬(k = k') := fun hh => h hh.symm
  induction l with
  | nil => simp [insertAssoc, assocFind, hk]
  | cons p t ih =>
    by_cases hp : p.1 = k
    · simp [insertAssoc, assocFind, hp, hk]
    · by_cases hp' : p.1 = k' <;> simp [insertAssoc, assocFind, hp, hp', ih, h]

theorem foldl_preserve {α β : Type} {f : α → β → α} {P : α → Prop} (l : List β)
    (h : ∀ a x, x ∈ l → P a → P (f a x)) (acc : α) (ha : P acc) :
    P (l.foldl f acc) := by
  induction l generalizing acc with
  | nil => exact ha
  | cons x t ih =>
    exact ih (fun a y hy => h a y (by simp [hy])) _ (h acc x (by simp) ha)

/-! ## Lemmas: the summary construction (claims C5, C10) -/

theorem assocFind_sdSet_ne (k suf : String) (v : JValue) (s : List (String × JValue))
    (p : String) (h : p ≠ k) : assocFind (sdSet k suf v s) p = assocFind s p := by
  unfold sdSet
  cases hf : assocFind s k with
  | none => simp [assocFind_insert_ne _ _ _ _ h]
  | some w => cases w <;> simp [assocFind_insert_ne _ _ _ _ h]

theorem assocFind_sdSet_self (k suf : String) (v : JValue) (s : List (String × JValue)) :
    ∃ il, assocFind (sdSet k suf v s) k = some (JValue.obj il) := by
  unfold sdSet
  cases hf : assocFind s k with
  | none => exact ⟨_, assocFind_insert_self _ _ _⟩
  | some w => cases w <;> exact ⟨_, assocFind_insert_self _ _ _⟩

/-- A summary step for key `k` leaves the binding of any other key unchanged. -/
theorem summary_step_lookup_ne (cfgd : List (String × JValue)) (acc : List (String × JValue))
    (k p : String) (h : p ≠ k) :
    assocFind (summary_step cfgd acc k) p = assocFind acc p := by
  unfold summary_step
  cases hv : get_by_dot cfgd k with
  | null =>
    refine foldl_preserve (P := fun a => assocFind a p = assocFind acc p) _ ?_ _ rfl
    intro a q _ hq
    by_cases hs : strStarts k q.1 <;>
      simp [hs, assocFind_sdSet_ne _ _ _ _ _ h, hq]
  | bool b => simp [assocFind_insert_ne _ _ _ _ h]
  | num s => simp [assocFind_insert_ne _ _ _ _ h]
  | str s => simp [assocFind_insert_ne _ _ _ _ h]
  | arr xs => simp [assocFind_insert_ne _ _ _ _ h]
  | obj l => simp [assocFind_insert_ne _ _ _ _ h]

/-- A summary step for key `p` with a non-null exact lookup binds `p` to it. -/
theorem summary_step_lookup_self (cfgd : List (String × JValue)) (acc : List (String × JValue))
    (p : String) (hv : get_by_dot cfgd p ≠ JValue.null) :
    assocFind (summary_step cfgd acc p) p = some (get_by_dot cfgd p) := by
  unfold summary_step
  cases h : get_by_dot cfgd p with
  | null => exact absurd h hv
  | bool b => simp [assocFind_insert_self]
  | num s => simp [assocFind_insert_self]
  | str s => simp [assocFind_insert_self]
  | arr xs => simp [assocFind_insert_self]
  | obj l => simp [assocFind_insert_self]

theorem summary_fold_keeps (cfgd : List (String × JValue)) (p : String)
    (hv : get_by_dot cfgd p ≠ JValue.null) :
    ∀ (keep : List String) (acc : List (String × JValue)),
      p ∈ keep ∨ assocFind acc p = some (get_by_dot cfgd p) →
      assocFind (keep.foldl (summary_step cfgd) acc) p = some (get_by_dot cfgd p) := by
  intro keep
  induction keep with
  | nil =>
    intro acc h
    exact h.resolve_left (by simp)
  | cons k rest ih =>
    intro acc h
    by_cases hk : p = k
    · subst hk
      exact ih _ (Or.inr (summary_step_lookup_self cfgd acc p hv))
    · rcases h with h | h
      · rcases List.mem_cons.mp h with h | h
        · exact absurd h hk
        · exact ih _ (Or.inl h)
      · exact ih _ (Or.inr ((summary_step_lookup_ne cfgd acc k p hk).trans h))

/-- A summary step for key `p` whose exact lookup is null and that matches no
flattened key leaves the accumulator unchanged. -/
theorem summary_step_nomatch (cfgd : List (String × JValue)) (acc : List (String × JValue))
    (p : String) (hnull : get_by_dot cfgd p = JValue.null)
    (hno : ∀ q ∈ flatten_dict cfgd, strStarts p q.1 = false) :
    summary_step cfgd acc p = acc := by
  unfold summary_step
  rw [hnull]
  refine foldl_preserve (P := fun a => a = acc) _ ?_ _ rfl
  intro a q hq ha
  simp [hno q hq, ha]

theorem summary_fold_none (cfgd : List (String × JValue)) (p : String)
    (hnull : get_by_dot cfgd p = JValue.null)
    (hno : ∀ q ∈ flatten_dict cfgd, strStarts p q.1 = false) :
    ∀ (keep : List String) (acc : List (String × JValue)), assocFind acc p = none →
      assocFind (keep.foldl (summary_step cfgd) acc) p = none := by
  intro keep
  induction keep with
  | nil => intro acc h; exact h
  | cons k rest ih =>
    intro acc h
    by_cases hk : p = k
    · subst hk
      exact ih _ (by rw [summary_step_nomatch cfgd acc p hnull hno]; exact h)
    · exact ih _ ((summary_step_lookup_ne cfgd acc k p hk).trans h)

/-- In the fallback branch the value bound to `p` is always a nested object. -/
theorem summary_step_null_obj (cfgd : List (String × JValue)) (acc : List (String × JValue))
    (p : String) (hnull : get_by_dot cfgd p = JValue.null)
    (hacc : assocFind acc p = none ∨ ∃ il, assocFind acc p = some (JValue.obj il)) :
    assocFind (summary_step cfgd acc p) p = none ∨
      ∃ il, assocFind (summary_step cfgd acc p) p = some (JValue.obj il) := by
  unfold summary_step
  rw [hnull]
  refine foldl_preserve
    (P := fun a => assocFind a p = none ∨ ∃ il, assocFind a p = some (JValue.obj il)) _ ?_ _ hacc
  intro a q _ ha
  by_cases hs : strStarts p q.1
  · simpa [hs] using Or.inr (assocFind_sdSet_self p (sufAfter p q.1) q.2 a)
  · simpa [hs] using ha

/-! ## Claim C5 -/

/-- C5: for every plain config dict and keep list, a dotted path whose exact
dotted traversal succeeds (returns a non-null value, the code's success test)
is stored as a top-level summary entry under the full dotted key; the
spec's example `{optimizer: {lr, momentum}}` with keep path `optimizer.lr`
yields `{"optimizer.lr": 0.1}`; and a path with neither an exact match nor a
flattened-key prefix match is absent from the summary (no error is raised —
`config_summary` is total). -/
theorem claim_C5 :
    (∀ (cfgd : List (String × JValue)) (keep : List String) (p : String),
      p ∈ keep → get_by_dot cfgd p ≠ JValue.null →
      recordLookup (config_summary cfgd keep) p = some (get_by_dot cfgd p)) ∧
    (config_summary
        [("optimizer", JValue.obj [("lr", JValue.num "0.1"), ("momentum", JValue.num "0.9")])]
        ["optimizer.lr"] = JValue.obj [("optimizer.lr", JValue.num "0.1")]) ∧
    (∀ (cfgd : List (String × JValue)) (keep : List String) (p : String),
      p ∈ keep → get_by_dot cfgd p = JValue.null →
      (∀ q ∈ flatten_dict cfgd, strStarts p q.1 = false) →
      recordLookup (config_summary cfgd keep) p = none) := by
  refine ⟨?_, by rfl, ?_⟩
  · intro cfgd keep p hmem hv
    cases keep with
    | nil => cases hmem
    | cons k rest =>
      simpa [config_summary, recordLookup] using
        summary_fold_keeps cfgd p hv (k :: rest) [] (Or.inl hmem)
  · intro cfgd keep p hmem hnull hno
    cases keep with
    | nil => cases hmem
    | cons k rest =>
      simpa [config_summary, recordLookup] using
        summary_fold_none cfgd p hnull hno (k :: rest) [] rfl

theorem claim_C5_witness :
    recordLookup (config_summary
        [("optimizer", JValue.obj [("lr", JValue.num "0.1"), ("momentum", JValue.num "0.9")])]
        ["optimizer.lr"]) "optimizer.lr" = some (JValue.num "0.1") ∧
    recordLookup (config_summary [("x", JValue.num "1")] ["zz"]) "zz" = none := by
  constructor
  · have h := claim_C5.1
      [("optimizer", JValue.obj [("lr", JValue.num "0.1"), ("momentum", JValue.num "0.9")])]
      ["optimizer.lr"] "optimizer.lr" (by decide) (by decide)
    exact h.trans (by decide)
  · exact claim_C5.2.2 [("x", JValue.num "1")] ["zz"] "zz" (by decide) (by decide) (by decide)

/-! ## Claim C10 -/

/-- C10: a keep path that resolves exactly to `null` is indistinguishable from
a missing key, so the summary never binds the path directly to `null`; on
`{"a": null}` with keep path `"a"` the prefix-fallback branch produces the
nested entry `{"a": {"": null}}` (the flattened key matches itself with an
empty suffix). -/
theorem claim_C10 :
    (∀ (cfgd : List (String × JValue)) (p : String),
      get_by_dot cfgd p = JValue.null →
      recordLookup (config_summary cfgd [p]) p ≠ some JValue.null) ∧
    (config_summary [("a", JValue.null)] ["a"] =
      JValue.obj [("a", JValue.obj [("", JValue.null)])]) := by
  refine ⟨?_, by rfl⟩
  intro cfgd p hnull
  have h := summary_step_null_obj cfgd [] p hnull (Or.inl rfl)
  have : config_summary cfgd [p] = JValue.obj (summary_step cfgd [] p) := by
    simp [config_summary]
  rw [this]
  rcases h with h | ⟨il, h⟩ <;> simp [recordLookup, h]

theorem claim_C10_witness :
    recordLookup (config_summary [("a", JValue.null)] ["a"]) "a" ≠ some JValue.null :=
  claim_C10.1 [("a", JValue.null)] "a" (by decide)

/-! ## Lemmas: mtime sorting (claim C6) -/

theorem insDesc_perm (a : Entry) (l : List Entry) : List.Perm (insDesc a l) (a :: l) := by
  induction l with
  | nil => exact List.Perm.refl _
  | cons b t ih =>
    by_cases h : b.mtime ≤ a.mtime
    · simp [insDesc, h]
    · simp only [insDesc, h, if_false]
      exact (ih.cons b).trans (List.Perm.swap a b t)

theorem sortDesc_perm (l : List Entry) : List.Perm (sortDesc l) l := by
  induction l with
  | nil => exact List.Perm.refl _
  | cons a t ih => exact (insDesc_perm a (sortDesc t)).trans (ih.cons a)

theorem insDesc_sorted (a : Entry) (l : List Entry)
    (h : l.Pairwise (fun x y => y.mtime ≤ x.mtime)) :
    (insDesc a l).Pairwise (fun x y => y.mtime ≤ x.mtime) := by
  induction l with
  | nil => simp [insDesc]
  | cons b t ih =>
    rcases List.pairwise_cons.mp h with ⟨hb, ht⟩
    by_cases hab : b.mtime ≤ a.mtime
    · simp only [insDesc, hab, if_true]
      refine List.pairwise_cons.mpr ⟨?_, h⟩
      intro x hx
      rcases List.mem_cons.mp hx with hx | hx
      · subst hx; exact hab
      · exact Nat.le_trans (hb x hx) hab
    · simp only [insDesc, hab, if_false]
      refine List.pairwise_cons.mpr ⟨?_, ih ht⟩
      intro x hx
      have hx' := (insDesc_perm a t).mem_iff.mp hx
      rcases List.mem_cons.mp hx' with rfl | hx'
      · exact Nat.le_of_not_le hab
      · exact hb x hx'

theorem sortDesc_sorted (l : List Entry) :
    (sortDesc l).Pairwise (fun x y => y.mtime ≤ x.mtime) := by
  induction l with
  | nil => simp [sortDesc]
  | cons a t ih => exact insDesc_sorted a (sortDesc t) ih

theorem assocFind_append {α : Type} (l1 l2 : List (String × α)) (k : String) :
    assocFind (l1 ++ l2) k =
      match assocFind l1 k with
      | some v => some v
      | none => assocFind l2 k := by
  induction l1 with
  | nil => simp [assocFind]
  | cons p t ih => by_cases h : p.1 = k <;> simp [assocFind, h, ih]

/-! ## Claim C6 -/

/-- C6: `find_checkpoints` collects exactly the files with one of the three
recognized suffixes and returns them sorted by modification time newest
first; in `create_id_card`, a non-empty result sets `files.checkpoints` to
the list and `files.best` to its first element, and an empty result leaves
the `checkpoints` key absent from the `files` section. -/
theorem claim_C6 :
    (∀ (entries : List Entry) (e : Entry),
      e ∈ ckptMatches entries ↔
        e ∈ entries ∧ e.is_file = true ∧
          (strEnds e.name ".ckpt" = true ∨ strEnds e.name ".pt" = true ∨
            strEnds e.name ".pth" = true)) ∧
    (∀ entries : List Entry,
      List.Perm (sortDesc (ckptMatches entries)) (ckptMatches entries) ∧
      (sortDesc (ckptMatches entries)).Pairwise (fun x y => y.mtime ≤ x.mtime) ∧
      find_checkpoints entries = (sortDesc (ckptMatches entries)).map entryPath) ∧
    (∀ (p : ExperimentProfile) (cfgd : List (String × JValue)) (n ca : String)
        (entries : List Entry) (meta : List (String × JValue))
        (globFn : String → Entry → Bool) (fl : List (String × JValue)),
      recordLookup (create_id_card_record p cfgd n entries ca meta globFn) "files" =
        some (JValue.obj fl) →
      (∀ c cs, find_checkpoints entries = c :: cs →
        assocFind fl "checkpoints" = some (JValue.arr ((c :: cs).map JValue.str)) ∧
        assocFind fl "best" = some (JValue.str c)) ∧
      (find_checkpoints entries = [] → assocFind fl "checkpoints" = none)) := by
  refine ⟨?_, fun entries => ⟨sortDesc_perm _, sortDesc_sorted _, rfl⟩, ?_⟩
  · intro entries e
    simp only [ckptMatches, List.mem_append, List.mem_filter, Bool.and_eq_true]
    tauto
  · intro p cfgd n ca entries meta globFn fl hfl
    have hfl' : fl = buildFiles globFn entries p.extra_files := by
      simpa [create_id_card_record, create_id_card_entries, recordLookup, assocFind]
        using hfl.symm
    subst hfl'
    constructor
    · intro c cs hck
      unfold buildFiles
      rw [hck]
      simp [assocFind_append, assocFind]
    · intro hck
      unfold buildFiles
      rw [hck]
      rw [assocFind_append]
      have h2 : assocFind (match find_wandb_dir entries with
          | some w => [("wandb", JValue.str w)]
          | none => []) "checkpoints" = none := by
        cases find_wandb_dir entries <;> simp [assocFind]
      have h3 : assocFind (match extraFound globFn entries p.extra_files with
          | [] => []
          | ex => [("extra", JValue.obj ex)]) "checkpoints" = none := by
        cases extraFound globFn entries p.extra_files <;> simp [assocFind]
      simp [assocFind, assocFind_append, h2, h3]

theorem claim_C6_witness :
    (Entry.mk [] "a.ckpt" 5 true ∈
      ckptMatches [Entry.mk [] "a.ckpt" 5 true, Entry.mk [] "b.txt" 9 true]) ∧
    ((fun fl =>
        assocFind fl "checkpoints" =
            some (JValue.arr [JValue.str "new.ckpt", JValue.str "old.ckpt"]) ∧
          assocFind fl "best" = some (JValue.str "new.ckpt"))
      (buildFiles (fun _ _ => false)
        [Entry.mk [] "old.ckpt" 1 true, Entry.mk [] "new.ckpt" 7 true] [])) ∧
    assocFind (buildFiles (fun _ _ => false) [Entry.mk [] "b.txt" 9 true] []) "checkpoints" =
      none := by
  refine ⟨?_, ?_, ?_⟩
  · exact (claim_C6.1 [Entry.mk [] "a.ckpt" 5 true, Entry.mk [] "b.txt" 9 true]
      (Entry.mk [] "a.ckpt" 5 true)).mpr ⟨by decide, by decide, by decide⟩
  · have h := (claim_C6.2.2 {} []
      "exp_x" "t" [Entry.mk [] "old.ckpt" 1 true, Entry.mk [] "new.ckpt" 7 true] []
      (fun _ _ => false) _ rfl).1 "new.ckpt" ["old.ckpt"] (by decide)
    exact ⟨h.1.trans (by decide), h.2.trans (by decide)⟩
  · exact (claim_C6.2.2 {} [] "exp_x" "t" [Entry.mk [] "b.txt" 9 true] []
      (fun _ _ => false) _ rfl).2 (by decide)

/-! ## Claim C7 -/

theorem foldl_max_init (l : List Nat) : ∀ acc : Nat, acc ≤ l.foldl Nat.max acc := by
  induction l with
  | nil => intro acc; exact Nat.le_refl acc
  | cons x t ih =>
    intro acc
    exact Nat.le_trans (Nat.le_max_left acc x) (ih (Nat.max acc x))

theorem le_foldl_max (l : List Nat) : ∀ (acc n : Nat), n ∈ l → n ≤ l.foldl Nat.max acc := by
  induction l with
  | nil => intro _ _ h; cases h
  | cons x t ih =>
    intro acc n h
    rcases List.mem_cons.mp h with rfl | h
    · exact Nat.le_trans (Nat.le_max_right acc n) (foldl_max_init t (Nat.max acc n))
    · exact ih (Nat.max acc x) n h

/-- C7: the next sequential name is `exp_` plus `max + 1` of the trailing
integers of the matching child directories, zero-padded to width four; on
`exp_0001`, `exp_0003` (gap at 2) it is `exp_0004`; and the new number is
strictly greater than every existing one, so the sequence increases
regardless of gaps. -/
theorem claim_C7 :
    (next_sequential_name ["exp_0001", "exp_0003"] = "exp_0004") ∧
    (∀ (dirs : List String) (n : Nat), n ∈ seqNums dirs → n < seqNext dirs) ∧
    (∀ dirs : List String, next_sequential_name dirs = "exp_" ++ pad4 (seqNext dirs)) := by
  refine ⟨by rfl, ?_, fun dirs => rfl⟩
  intro dirs n hn
  unfold seqNext
  cases h : seqNums dirs with
  | nil => rw [h] at hn; cases hn
  | cons c cs =>
    rw [h] at hn
    exact Nat.lt_succ_of_le (le_foldl_max (c :: cs) 0 n hn)

theorem claim_C7_witness :
    3 ∈ seqNums ["exp_0001", "exp_0003"] ∧ 3 < seqNext ["exp_0001", "exp_0003"] :=
  ⟨by decide, claim_C7.2.1 ["exp_0001", "exp_0003"] 3 (by decide)⟩

/-! ## Claim C9 -/

/-- C9: name derivation succeeds exactly for the four supported
identifier-generation modes (`sequential`, `timestamp`, `hash`, `uuid` in the
source; sequential-counter / timestamp / content-hash / random-unique in the
spec) and fails with the invalid-configuration error (`ValueError` in the
source) for every other mode. -/
theorem claim_C9 :
    ∀ (id_mode : String) (hl : Nat) (ctx : NameCtx) (sel : JValue),
      ((∃ name, generate_exp_name id_mode hl ctx sel = Except.ok name) ↔
        id_mode ∈ ["sequential", "timestamp", "hash", "uuid"]) ∧
      (id_mode ∉ ["sequential", "timestamp", "hash", "uuid"] →
        generate_exp_name id_mode hl ctx sel =
          Except.error (ExpError.invalidConfiguration ("unknown id_mode: " ++ id_mode))) := by
  intro m hl ctx sel
  by_cases h1 : m = "sequential"
  · subst h1; simp [generate_exp_name]
  · by_cases h2 : m = "timestamp"
    · subst h2; simp [generate_exp_name]
    · by_cases h3 : m = "hash"
      · subst h3; simp [generate_exp_name]
      · by_cases h4 : m = "uuid"
        · subst h4; simp [generate_exp_name]
        · simp [generate_exp_name, h1, h2, h3, h4]

theorem claim_C9_witness :
    (∃ name, generate_exp_name "hash" 8 (NameCtx.mk [] "" "") JValue.null = Except.ok name) ∧
    generate_exp_name "bogus" 8 (NameCtx.mk [] "" "") JValue.null =
      Except.error (ExpError.invalidConfiguration "unknown id_mode: bogus") := by
  constructor
  · exact (claim_C9 "hash" 8 (NameCtx.mk [] "" "") JValue.null).1.mpr (by decide)
  · exact (claim_C9 "bogus" 8 (NameCtx.mk [] "" "") JValue.null).2 (by decide)

/-! ## Lemmas: the refresh operation (claims C2, C3, C4) -/

theorem assocFind_setFiles_ne (l : List (String × JValue))
    (f : List (String × JValue) → List (String × JValue)) (k : String) (h : k ≠ "files") :
    assocFind (setFiles l f) k = assocFind l k := by
  unfold setFiles
  exact assocFind_insert_ne _ _ _ _ h

theorem assocFind_setFiles_self (l : List (String × JValue))
    (f : List (String × JValue) → List (String × JValue)) :
    assocFind (setFiles l f) "files" =
      some (JValue.obj (f (match assocFind l "files" with
        | some (JValue.obj fl) => fl
        | _ => []))) := by
  unfold setFiles
  exact assocFind_insert_self _ _ _

/-! ## Claim C3 -/

/-- C3: `update_id_card_with_artifacts` only rewrites the `files` key: for
every loaded record and every key other than `files`, the refreshed record
binds the key to the identical value (identifier, hash, timestamp,
description, summary, policy echo and meta are preserved verbatim; refresh
never re-derives identity).  Since the record is re-serialized by the same
deterministic writer, value identity gives byte identity per key. -/
theorem claim_C3 :
    ∀ (record : JValue) (entries : List Entry) (k : String), k ≠ "files" →
      recordLookup (update_id_card_with_artifacts record entries) k =
        recordLookup record k := by
  intro record entries k hk
  cases record with
  | obj l =>
    unfold update_id_card_with_artifacts
    cases find_checkpoints entries with
    | nil =>
      cases find_wandb_dir entries with
      | none => simp [recordLookup]
      | some w => simp [recordLookup, assocFind_setFiles_ne _ _ _ hk]
    | cons c cs =>
      cases find_wandb_dir entries with
      | none => simp [recordLookup, assocFind_setFiles_ne _ _ _ hk]
      | some w => simp [recordLookup, assocFind_setFiles_ne _ _ _ hk]
  | null => rfl
  | bool b => rfl
  | num s => rfl
  | str s => rfl
  | arr xs => rfl

theorem claim_C3_witness :
    recordLookup
      (update_id_card_with_artifacts
        (JValue.obj [("id", JValue.str "exp_1"), ("stable_hash", JValue.str "abc"),
          ("files", JValue.obj [])])
        [Entry.mk [] "model.ckpt" 3 true]) "id" = some (JValue.str "exp_1") :=
  (claim_C3
    (JValue.obj [("id", JValue.str "exp_1"), ("stable_hash", JValue.str "abc"),
      ("files", JValue.obj [])])
    [Entry.mk [] "model.ckpt" 3 true] "id" (by decide)).trans (by decide)

/-- When checkpoint discovery is non-empty, the refresh overwrites
`files.checkpoints` with the fresh list and `files.best` with its head. -/
theorem update_files_ckpt (l : List (String × JValue)) (entries : List Entry)
    (c : String) (cs : List String) (hck : find_checkpoints entries = c :: cs) :
    filesFind (update_id_card_with_artifacts (JValue.obj l) entries) "checkpoints" =
      some (JValue.arr ((c :: cs).map JValue.str)) ∧
    filesFind (update_id_card_with_artifacts (JValue.obj l) entries) "best" =
      some (JValue.str c) := by
  unfold update_id_card_with_artifacts
  rw [hck]
  cases find_wandb_dir entries with
  | none =>
    simp only [filesFind, recordLookup, assocFind_setFiles_self]
    constructor
    · rw [assocFind_insert_ne _ _ _ _ (by decide), assocFind_insert_self]
    · rw [assocFind_insert_self]
  | some w =>
    simp only [filesFind, recordLookup, assocFind_setFiles_self]
    constructor
    · rw [assocFind_insert_ne _ _ _ _ (by decide),
        assocFind_insert_ne _ _ _ _ (by decide), assocFind_insert_self]
    · rw [assocFind_insert_ne _ _ _ _ (by decide), assocFind_insert_self]

/-! ## Claim C4 -/

/-- C4 as stated is refuted: refreshing a record whose directory now holds no
checkpoints leaves the stale `files.checkpoints` entry in place (the claim
requires categories with empty discovery to be absent), and the extra-file
glob patterns are not re-discovered at all by the refresh. -/
theorem claim_C4_counterexample :
    update_id_card_with_artifacts
        (JValue.obj [("id", JValue.str "exp_a"),
          ("files", JValue.obj [("checkpoints", JValue.arr [JValue.str "old.ckpt"]),
            ("best", JValue.str "old.ckpt")])]) [] =
      JValue.obj [("id", JValue.str "exp_a"),
        ("files", JValue.obj [("checkpoints", JValue.arr [JValue.str "old.ckpt"]),
          ("best", JValue.str "old.ckpt")])] ∧
    find_checkpoints [] = [] ∧
    filesFind
      (update_id_card_with_artifacts
        (JValue.obj [("id", JValue.str "exp_a"),
          ("files", JValue.obj [("checkpoints", JValue.arr [JValue.str "old.ckpt"]),
            ("best", JValue.str "old.ckpt")])]) []) "checkpoints" ≠ none := by
  exact ⟨by rfl, by rfl, by decide⟩

/-- C4 amended: the refresh re-runs checkpoint and log-directory discovery
only.  When checkpoint discovery is non-empty it overwrites
`files.checkpoints` with the fresh list and `files.best` with its head; when
it is empty the prior `checkpoints` entry (stale or absent) is left exactly
as it was.  Likewise, a non-empty log-directory discovery overwrites
`files.wandb` with the fresh path and an empty one leaves the prior `wandb`
entry unchanged.  The `extra` category is never re-discovered — it always
keeps its previous value. -/
theorem claim_C4 :
    ∀ (l : List (String × JValue)) (entries : List Entry),
      (∀ c cs, find_checkpoints entries = c :: cs →
        filesFind (update_id_card_with_artifacts (JValue.obj l) entries) "checkpoints" =
          some (JValue.arr ((c :: cs).map JValue.str)) ∧
        filesFind (update_id_card_with_artifacts (JValue.obj l) entries) "best" =
          some (JValue.str c)) ∧
      (find_checkpoints entries = [] →
        filesFind (update_id_card_with_artifacts (JValue.obj l) entries) "checkpoints" =
          filesFind (JValue.obj l) "checkpoints") ∧
      (∀ w, find_wandb_dir entries = some w →
        filesFind (update_id_card_with_artifacts (JValue.obj l) entries) "wandb" =
          some (JValue.str w)) ∧
      (find_wandb_dir entries = none →
        filesFind (update_id_card_with_artifacts (JValue.obj l) entries) "wandb" =
          filesFind (JValue.obj l) "wandb") ∧
      (filesFind (update_id_card_with_artifacts (JValue.obj l) entries) "extra" =
        filesFind (JValue.obj l) "extra") := by
  intro l entries
  refine ⟨fun c cs hck => update_files_ckpt l entries c cs hck, ?_, ?_, ?_, ?_⟩
  · intro hck
    unfold update_id_card_with_artifacts
    rw [hck]
    cases find_wandb_dir entries with
    | none => simp [filesFind, recordLookup]
    | some w =>
      simp only [filesFind, recordLookup, assocFind_setFiles_self]
      rw [assocFind_insert_ne _ _ _ _ (by decide)]
      cases h : assocFind l "files" with
      | none => simp [assocFind]
      | some v => cases v <;> simp [assocFind]
  · intro w hw
    unfold update_id_card_with_artifacts
    rw [hw]
    cases find_checkpoints entries with
    | nil =>
      simp only [filesFind, recordLookup, assocFind_setFiles_self]
      rw [assocFind_insert_self]
    | cons c cs =>
      simp only [filesFind, recordLookup, assocFind_setFiles_self]
      rw [assocFind_insert_self]
  · intro hw
    unfold update_id_card_with_artifacts
    rw [hw]
    cases find_checkpoints entries with
    | nil => simp [filesFind, recordLookup]
    | cons c cs =>
      simp only [filesFind, recordLookup, assocFind_setFiles_self]
      rw [assocFind_insert_ne _ _ _ _ (by decide),
        assocFind_insert_ne _ _ _ _ (by decide)]
      cases h : assocFind l "files" with
      | none => simp [assocFind]
      | some v => cases v <;> simp [assocFind]
  · unfold update_id_card_with_artifacts
    cases hc : find_checkpoints entries with
    | nil =>
      cases find_wandb_dir entries with
      | none => simp [filesFind, recordLookup]
      | some w =>
        simp only [filesFind, recordLookup, assocFind_setFiles_self]
        rw [assocFind_insert_ne _ _ _ _ (by decide)]
        cases h : assocFind l "files" with
        | none => simp [assocFind]
        | some v => cases v <;> simp [assocFind]
    | cons c cs =>
      cases find_wandb_dir entries with
      | none =>
        simp only [filesFind, recordLookup, assocFind_setFiles_self]
        rw [assocFind_insert_ne _ _ _ _ (by decide),
          assocFind_insert_ne _ _ _ _ (by decide)]
        cases h : assocFind l "files" with
        | none => simp [assocFind]
        | some v => cases v <;> simp [assocFind]
      | some w =>
        simp only [filesFind, recordLookup, assocFind_setFiles_self]
        rw [assocFind_insert_ne _ _ _ _ (by decide),
          assocFind_insert_ne _ _ _ _ (by decide),
          assocFind_insert_ne _ _ _ _ (by decide)]
        cases h : assocFind l "files" with
        | none => simp [assocFind]
        | some v => cases v <;> simp [assocFind]

theorem claim_C4_witness :
    filesFind
      (update_id_card_with_artifacts
        (JValue.obj [("files", JValue.obj [("extra", JValue.obj [("*.txt",
          JValue.arr [JValue.str "a.txt"])])])])
        [Entry.mk [] "new.ckpt" 4 true, Entry.mk [] "wandb" 5 false]) "checkpoints" =
        some (JValue.arr [JValue.str "new.ckpt"]) ∧
    filesFind
      (update_id_card_with_artifacts
        (JValue.obj [("files", JValue.obj [("extra", JValue.obj [("*.txt",
          JValue.arr [JValue.str "a.txt"])])])])
        [Entry.mk [] "new.ckpt" 4 true, Entry.mk [] "wandb" 5 false]) "wandb" =
        some (JValue.str "wandb") ∧
    filesFind
      (update_id_card_with_artifacts
        (JValue.obj [("files", JValue.obj [("extra", JValue.obj [("*.txt",
          JValue.arr [JValue.str "a.txt"])])])])
        [Entry.mk [] "new.ckpt" 4 true, Entry.mk [] "wandb" 5 false]) "extra" =
        some (JValue.obj [("*.txt", JValue.arr [JValue.str "a.txt"])]) := by
  refine ⟨?_, ?_, ?_⟩
  · exact ((claim_C4 [("files", JValue.obj [("extra", JValue.obj [("*.txt",
      JValue.arr [JValue.str "a.txt"])])])]
      [Entry.mk [] "new.ckpt" 4 true, Entry.mk [] "wandb" 5 false]).1
      "new.ckpt" [] (by decide)).1
  · exact (claim_C4 [("files", JValue.obj [("extra", JValue.obj [("*.txt",
      JValue.arr [JValue.str "a.txt"])])])]
      [Entry.mk [] "new.ckpt" 4 true, Entry.mk [] "wandb" 5 false]).2.2.1
      "wandb" (by decide)
  · exact ((claim_C4 [("files", JValue.obj [("extra", JValue.obj [("*.txt",
      JValue.arr [JValue.str "a.txt"])])])]
      [Entry.mk [] "new.ckpt" 4 true, Entry.mk [] "wandb" 5 false]).2.2.2.2).trans
      (by decide)

/-! ## Claim C2 -/

/-- C2 as stated is refuted: with `update_after=True` the refresh runs (its
result is the final on-disk record) but `create_id_card` returns the
pre-refresh snapshot `id_card`, discarding the refresh result; on a directory
that gains a checkpoint between the initial artifact scan and the refresh the
returned value differs from the record produced by the refresh. -/
theorem claim_C2_counterexample :
    (create_id_card_run {} [] "exp_x" [] [Entry.mk [] "late.ckpt" 5 true] "t" []
        (fun _ _ => false) true).1 ≠
      update_id_card_with_artifacts
        (create_id_card_record {} [] "exp_x" [] "t" [] (fun _ _ => false))
        [Entry.mk [] "late.ckpt" 5 true] ∧
    (create_id_card_run {} [] "exp_x" [] [Entry.mk [] "late.ckpt" 5 true] "t" []
        (fun _ _ => false) true).2 =
      update_id_card_with_artifacts
        (create_id_card_record {} [] "exp_x" [] "t" [] (fun _ _ => false))
        [Entry.mk [] "late.ckpt" 5 true] := by
  exact ⟨by decide, by rfl⟩

/-- C2 amended: with the refresh-after-create flag set, the refresh operation
is performed and its result is what remains on disk, but the value returned
to the caller is the snapshot assembled before the refresh; in particular the
returned record reflects only scan-time artifacts, while artifacts appearing
before the refresh show up only in the on-disk record. -/
theorem claim_C2 :
    ∀ (p : ExperimentProfile) (cfgd : List (String × JValue)) (n : String)
      (e1 e2 : List Entry) (ca : String) (meta : List (String × JValue))
      (g : String → Entry → Bool),
      (create_id_card_run p cfgd n e1 e2 ca meta g true).1 =
        create_id_card_record p cfgd n e1 ca meta g ∧
      (create_id_card_run p cfgd n e1 e2 ca meta g true).2 =
        update_id_card_with_artifacts (create_id_card_record p cfgd n e1 ca meta g) e2 ∧
      (find_checkpoints e1 = [] → find_wandb_dir e1 = none →
        extraFound g e1 p.extra_files = [] →
        filesFind (create_id_card_run p cfgd n e1 e2 ca meta g true).1 "checkpoints" = none ∧
        (∀ c cs, find_checkpoints e2 = c :: cs →
          filesFind (create_id_card_run p cfgd n e1 e2 ca meta g true).2 "checkpoints" =
            some (JValue.arr ((c :: cs).map JValue.str)))) := by
  intro p cfgd n e1 e2 ca meta g
  refine ⟨rfl, rfl, ?_⟩
  intro h1 h2 h3
  constructor
  · have hb : buildFiles g e1 p.extra_files = [] := by
      unfold buildFiles
      rw [h1, h2, h3]
      rfl
    show filesFind (create_id_card_record p cfgd n e1 ca meta g) "checkpoints" = none
    simp [filesFind, create_id_card_record, create_id_card_entries, recordLookup,
      assocFind, hb]
  · intro c cs hcs
    show filesFind
      (update_id_card_with_artifacts (create_id_card_record p cfgd n e1 ca meta g) e2)
      "checkpoints" = _
    unfold create_id_card_record
    exact (update_files_ckpt _ e2 c cs hcs).1

theorem claim_C2_witness :
    filesFind (create_id_card_run {} [] "exp_w" [] [Entry.mk [] "late.ckpt" 5 true]
        "t" [] (fun _ _ => false) true).1 "checkpoints" = none ∧
    filesFind (create_id_card_run {} [] "exp_w" [] [Entry.mk [] "late.ckpt" 5 true]
        "t" [] (fun _ _ => false) true).2 "checkpoints" =
      some (JValue.arr [JValue.str "late.ckpt"]) := by
  have h := (claim_C2 {} [] "exp_w" [] [Entry.mk [] "late.ckpt" 5 true] "t" []
    (fun _ _ => false)).2.2 (by decide) (by decide) (by decide)
  exact ⟨h.1, h.2 "late.ckpt" [] (by decide)⟩

/-! ## Lemmas: the atomic-write protocol (claim C8) -/

theorem mk_append_data (l : List Char) (s : String) : (String.mk l ++ s).data = l ++ s.data := by
  cases s
  rfl

theorem create_tmp_ne (n : String) : create_tmp_name n ≠ n := by
  intro h
  have hh := congrArg (fun s : String => s.data.length) h
  simp only [create_tmp_name] at hh
  rw [show n ++ ".tmp" = String.mk n.data ++ ".tmp" from by cases n; rfl] at hh
  rw [mk_append_data] at hh
  simp at hh

theorem firstDotIdx_lt (l : List Char) (d : Nat) (h : firstDotIdx l = some d) : d < l.length := by
  induction l generalizing d with
  | nil => simp [firstDotIdx] at h
  | cons c t ih =>
    by_cases hc : c = '.'
    · simp [firstDotIdx, hc] at h
      simp [h.symm]
    · simp only [firstDotIdx, hc, if_false] at h
      cases hf : firstDotIdx t with
      | none => rw [hf] at h; simp at h
      | some d' =>
        rw [hf] at h
        simp at h
        have := ih d' hf
        simp
        omega

theorem firstDot_concrete (rest : List Char) :
    firstDotIdx ('p' :: 'm' :: 't' :: '.' :: rest) = some 3 := by
  rw [firstDotIdx, if_neg (by decide), firstDotIdx, if_neg (by decide),
    firstDotIdx, if_neg (by decide), firstDotIdx, if_pos rfl]
  rfl

theorem pySuffixLen_le (n : String) : pySuffixLen n ≤ n.data.length := by
  unfold pySuffixLen
  cases h : rfindDot n.data with
  | none => exact Nat.zero_le _
  | some i =>
    dsimp only
    by_cases hc : 0 < i ∧ i < n.data.length - 1
    · rw [if_pos hc]; exact Nat.sub_le _ _
    · rw [if_neg hc]; exact Nat.zero_le _

theorem update_tmp_ne (n : String) : update_tmp_name n ≠ n := by
  intro h
  have hsufc : (".json.tmp" : String).data = ['.', 'j', 's', 'o', 'n', '.', 't', 'm', 'p'] := rfl
  have hd : n.data.take (n.data.length - pySuffixLen n) ++
      ['.', 'j', 's', 'o', 'n', '.', 't', 'm', 'p'] = n.data := by
    have hh := congrArg String.data h
    rw [update_tmp_name, pyWithSuffix, mk_append_data, hsufc] at hh
    exact hh
  have hlen := congrArg List.length hd
  simp only [List.length_append, List.length_take] at hlen
  have hle := pySuffixLen_le n
  have hsl : pySuffixLen n = 9 := by
    simp only [List.length_cons, List.length_nil] at hlen
    omega
  rw [pySuffixLen] at hsl
  cases hr : rfindDot n.data with
  | none =>
    rw [hr] at hsl
    dsimp only at hsl
    exact absurd hsl (by decide)
  | some i =>
    rw [hr] at hsl
    dsimp only at hsl
    by_cases hc : 0 < i ∧ i < n.data.length - 1
    · rw [if_pos hc] at hsl
      rw [rfindDot] at hr
      cases hf : firstDotIdx n.data.reverse with
      | none => rw [hf] at hr; simp at hr
      | some d =>
        rw [hf] at hr
        simp only [Option.map_some'] at hr
        have hdlt : d < n.data.reverse.length := firstDotIdx_lt _ _ hf
        rw [List.length_reverse] at hdlt
        have hi : n.data.length - 1 - d = i := by
          injection hr
        have hd8 : d = 8 := by omega
        have hrev : n.data.reverse =
            'p' :: 'm' :: 't' :: '.' :: ('n' :: 'o' :: 's' :: 'j' :: '.' ::
              (n.data.take (n.data.length - pySuffixLen n)).reverse) := by
          have hh := congrArg List.reverse hd
          rw [List.reverse_append] at hh
          exact hh.symm
        rw [hrev, firstDot_concrete] at hf
        have : (3 : Nat) = d := by injection hf
        omega
    · rw [if_neg hc] at hsl
      exact absurd hsl (by decide)

theorem atomic_protocol_safe (fs0 : List (String × String)) (tmp target content : String)
    (htmp : tmp ≠ target) (fs : List (String × String))
    (h : crashStates fs0 [FsOp.write tmp content, FsOp.rename tmp target] fs) :
    (assocFind fs target = assocFind fs0 target ∨ assocFind fs target = some content) ∧
    ((assocFind fs0 target).isSome → (assocFind fs target).isSome) := by
  have htar : target ≠ tmp := fun hh => htmp hh.symm
  rcases h with ⟨k, hk⟩ | ⟨k, p, c, c', hop, hpre, hk⟩
  · rcases k with _ | _ | k
    · subst hk
      exact ⟨Or.inl rfl, fun hs => hs⟩
    · subst hk
      have hrw : runOps fs0 (List.take 1 [FsOp.write tmp content, FsOp.rename tmp target]) =
          insertAssoc tmp content fs0 := rfl
      rw [hrw, assocFind_insert_ne _ _ _ _ htar]
      exact ⟨Or.inl rfl, fun hs => hs⟩
    · subst hk
      have ht : List.take (k + 2) [FsOp.write tmp content, FsOp.rename tmp target] =
          [FsOp.write tmp content, FsOp.rename tmp target] := by
        apply List.take_of_length_le
        simp
      rw [ht]
      have happ : runOps fs0 [FsOp.write tmp content, FsOp.rename tmp target] =
          insertAssoc target content (eraseKey tmp (insertAssoc tmp content fs0)) := by
        simp [runOps, applyOp, assocFind_insert_self]
      rw [happ, assocFind_insert_self]
      exact ⟨Or.inr rfl, fun _ => rfl⟩
  · rcases k with _ | _ | k
    · have hop' : FsOp.write tmp content = FsOp.write p c := by
        simpa [List.get?] using hop
      obtain ⟨rfl, rfl⟩ : tmp = p ∧ content = c := by
        cases hop'
        exact ⟨rfl, rfl⟩
      subst hk
      have hrw : runOps fs0 (List.take 0 [FsOp.write tmp content, FsOp.rename tmp target]) =
          fs0 := rfl
      rw [hrw, assocFind_insert_ne _ _ _ _ htar]
      exact ⟨Or.inl rfl, fun hs => hs⟩
    · simp [List.get?] at hop
    · simp [List.get?] at hop

/-! ## Claim C8 -/

/-- C8: both record writers first write the complete document to a temporary
sibling whose name always differs from the target (`id_card_name + ".tmp"` at
registration, `with_suffix(".json.tmp")` at refresh) and then atomically
rename it over the target; in every state reachable by stopping anywhere in
either sequence — including a partially flushed temp-file write — the target
filename holds either its previous content or the complete new document
(never a partial one), and if the target existed before it still exists. -/
theorem claim_C8 :
    (∀ n : String, create_tmp_name n ≠ n) ∧
    (∀ n : String, update_tmp_name n ≠ n) ∧
    (∀ (fs0 : List (String × String)) (n content : String) (fs : List (String × String)),
      crashStates fs0 (create_write_ops n content) fs ∨
        crashStates fs0 (update_write_ops n content) fs →
      (assocFind fs n = assocFind fs0 n ∨ assocFind fs n = some content) ∧
      ((assocFind fs0 n).isSome → (assocFind fs n).isSome)) := by
  refine ⟨create_tmp_ne, update_tmp_ne, ?_⟩
  intro fs0 n content fs h
  rcases h with h | h
  · exact atomic_protocol_safe fs0 _ n content (create_tmp_ne n) fs h
  · exact atomic_protocol_safe fs0 _ n content (update_tmp_ne n) fs h

theorem claim_C8_witness :
    (assocFind (runOps [("id_card.json", "old")]
          (List.take 1 (create_write_ops "id_card.json" "new"))) "id_card.json" =
        assocFind [("id_card.json", "old")] "id_card.json" ∨
      assocFind (runOps [("id_card.json", "old")]
          (List.take 1 (create_write_ops "id_card.json" "new"))) "id_card.json" =
        some "new") ∧
    ((assocFind [("id_card.json", "old")] "id_card.json").isSome →
      (assocFind (runOps [("id_card.json", "old")]
          (List.take 1 (create_write_ops "id_card.json" "new"))) "id_card.json").isSome) :=
  claim_C8.2.2 [("id_card.json", "old")] "id_card.json" "new" _ (Or.inl (Or.inl ⟨1, rfl⟩))

/-! ## Claim C1: counterexample -/

/-- C1 as stated is refuted: the two configs below are structurally equal
(same keys `ab.c` and `ab`, same values, different insertion order) and
well-formed, yet hash-mode name derivation after projection with keep path
`a` yields different names.  The literal dotted key `ab.c` collides with the
flattened nested path `ab` → `c`, so `flatten_dict` collapses them
order-dependently and the prefix-fallback summaries differ. -/
theorem claim_C1_counterexample :
    canon (JValue.obj [("ab.c", JValue.num "1"), ("ab", JValue.obj [("c", JValue.num "2")])]) =
      canon (JValue.obj [("ab", JValue.obj [("c", JValue.num "2")]), ("ab.c", JValue.num "1")]) ∧
    wf (JValue.obj [("ab.c", JValue.num "1"), ("ab", JValue.obj [("c", JValue.num "2")])]) =
      true ∧
    wf (JValue.obj [("ab", JValue.obj [("c", JValue.num "2")]), ("ab.c", JValue.num "1")]) =
      true ∧
    generate_exp_name "hash" 8 (NameCtx.mk [] "" "")
        (config_summary [("ab.c", JValue.num "1"), ("ab", JValue.obj [("c", JValue.num "2")])]
          ["a"]) ≠
      generate_exp_name "hash" 8 (NameCtx.mk [] "" "")
        (config_summary [("ab", JValue.obj [("c", JValue.num "2")]), ("ab.c", JValue.num "1")]
          ["a"]) := by
  exact ⟨by rfl, by rfl, by rfl, by decide⟩

/-! ## Lemmas: the code-point order on keys (claim C1) -/

theorem charEq_of_toNat (a b : Char) (h : a.toNat = b.toNat) : a = b :=
  Char.eq_of_val_eq (UInt32.ext h)

theorem clLe_total : ∀ a b : List Char, clLe a b = true ∨ clLe b a = true := by
  intro a
  induction a with
  | nil => intro b; left; cases b <;> rfl
  | cons x xs ih =>
    intro b
    cases b with
    | nil => right; rfl
    | cons y ys =>
      by_cases hxy : x.toNat < y.toNat
      · left; simp [clLe, hxy]
      · by_cases hyx : y.toNat < x.toNat
        · right; simp [clLe, hyx]
        · rcases ih ys with h | h
          · left; simp [clLe, hxy, hyx, h]
          · right; simp [clLe, hxy, hyx, h]

theorem clLe_trans : ∀ a b c : List Char,
    clLe a b = true → clLe b c = true → clLe a c = true := by
  intro a
  induction a with
  | nil => intro b c _ _; cases c <;> rfl
  | cons x xs ih =>
    intro b c h1 h2
    cases b with
    | nil => simp [clLe] at h1
    | cons y ys =>
      cases c with
      | nil => simp [clLe] at h2
      | cons z zs =>
        simp only [clLe] at h1 h2 ⊢
        by_cases hxy : x.toNat < y.toNat
        · by_cases hyz : y.toNat < z.toNat
          · have hxz : x.toNat < z.toNat := by omega
            simp [hxz]
          · simp only [hyz, if_false] at h2
            by_cases hzy : z.toNat < y.toNat
            · simp [hzy] at h2
            · have hxz : x.toNat < z.toNat := by omega
              simp [hxz]
        · simp only [hxy, if_false] at h1
          by_cases hyx : y.toNat < x.toNat
          · simp [hyx] at h1
          · simp only [hyx, if_false] at h1
            by_cases hyz : y.toNat < z.toNat
            · have hxz : x.toNat < z.toNat := by omega
              simp [hxz]
            · simp only [hyz, if_false] at h2
              by_cases hzy : z.toNat < y.toNat
              · simp [hzy] at h2
              · simp only [hzy, if_false] at h2
                have hxz : ¬x.toNat < z.toNat := by omega
                have hzx : ¬z.toNat < x.toNat := by omega
                simp only [hxz, hzx, if_false]
                exact ih ys zs h1 h2

theorem clLe_antisymm : ∀ a b : List Char,
    clLe a b = true → clLe b a = true → a = b := by
  intro a
  induction a with
  | nil =>
    intro b _ h2
    cases b with
    | nil => rfl
    | cons y ys => simp [clLe] at h2
  | cons x xs ih =>
    intro b h1 h2
    cases b with
    | nil => simp [clLe] at h1
    | cons y ys =>
      simp only [clLe] at h1 h2
      by_cases hxy : x.toNat < y.toNat
      · have hyx : ¬y.toNat < x.toNat := by omega
        simp [hyx, hxy] at h2
      · by_cases hyx : y.toNat < x.toNat
        · simp [hxy, hyx] at h1
        · simp only [hxy, hyx, if_false] at h1 h2
          have hx : x = y := charEq_of_toNat x y (by omega)
          rw [hx, ih ys h1 h2]

theorem string_data_inj (a b : String) (h : a.data = b.data) : a = b := by
  cases a
  cases b
  simp only at h
  rw [h]

theorem strLe_total (a b : String) : strLe a b = true ∨ strLe b a = true :=
  clLe_total a.data b.data

theorem strLe_trans (a b c : String) (h1 : strLe a b = true) (h2 : strLe b c = true) :
    strLe a c = true :=
  clLe_trans a.data b.data c.data h1 h2

theorem strLe_antisymm (a b : String) (h1 : strLe a b = true) (h2 : strLe b a = true) :
    a = b :=
  string_data_inj a b (clLe_antisymm a.data b.data h1 h2)

/-! ## Lemmas: key sorting (claim C1) -/

theorem insPair_perm (a : String × JValue) (l : List (String × JValue)) :
    List.Perm (insPair a l) (a :: l) := by
  induction l with
  | nil => exact List.Perm.refl _
  | cons b t ih =>
    by_cases h : keyLe a b
    · simp [insPair, h]
    · simp only [insPair, h, if_false]
      exact (ih.cons b).trans (List.Perm.swap a b t)

theorem sortPairs_perm (l : List (String × JValue)) : List.Perm (sortPairs l) l := by
  induction l with
  | nil => exact List.Perm.refl _
  | cons a t ih => exact (insPair_perm a (sortPairs t)).trans (ih.cons a)

theorem insPair_sorted (a : String × JValue) (l : List (String × JValue))
    (h : l.Pairwise (fun p q => keyLe p q = true)) :
    (insPair a l).Pairwise (fun p q => keyLe p q = true) := by
  induction l with
  | nil => simp [insPair]
  | cons b t ih =>
    rcases List.pairwise_cons.mp h with ⟨hb, ht⟩
    by_cases hab : keyLe a b
    · simp only [insPair, hab, if_true]
      refine List.pairwise_cons.mpr ⟨?_, h⟩
      intro x hx
      rcases List.mem_cons.mp hx with rfl | hx
      · exact hab
      · exact strLe_trans _ _ _ hab (hb x hx)
    · simp only [insPair, hab, if_false]
      refine List.pairwise_cons.mpr ⟨?_, ih ht⟩
      intro x hx
      have hx' := (insPair_perm a t).mem_iff.mp hx
      rcases List.mem_cons.mp hx' with hx0 | hx'
      · rw [hx0]
        rcases strLe_total a.1 b.1 with hh | hh
        · exact absurd hh hab
        · exact hh
      · exact hb x hx'

theorem sortPairs_sorted (l : List (String × JValue)) :
    (sortPairs l).Pairwise (fun p q => keyLe p q = true) := by
  induction l with
  | nil => simp [sortPairs]
  | cons a t ih => exact insPair_sorted a (sortPairs t) ih

theorem sorted_nodup_eq : ∀ (l1 l2 : List (String × JValue)),
    List.Perm l1 l2 → l1.Pairwise (fun p q => keyLe p q = true) →
    l2.Pairwise (fun p q => keyLe p q = true) → (keysOf l1).Nodup → l1 = l2 := by
  intro l1
  induction l1 with
  | nil =>
    intro l2 hp _ _ _
    have := hp.length_eq
    cases l2 with
    | nil => rfl
    | cons b t => simp at this
  | cons a t1 ih =>
    intro l2 hp hs1 hs2 hnd
    cases l2 with
    | nil => have := hp.length_eq; simp at this
    | cons b t2 =>
      by_cases hab : a = b
      · subst hab
        have hp' := hp.cons_inv
        rcases List.pairwise_cons.mp hs1 with ⟨_, hs1'⟩
        rcases List.pairwise_cons.mp hs2 with ⟨_, hs2'⟩
        rcases List.nodup_cons.mp hnd with ⟨_, hnd'⟩
        rw [ih t2 hp' hs1' hs2' hnd']
      · exfalso
        have hbmem : b ∈ a :: t1 := hp.mem_iff.mpr (by simp)
        have hbt1 : b ∈ t1 := by
          rcases List.mem_cons.mp hbmem with h | h
          · exact absurd h.symm hab
          · exact h
        have hamem : a ∈ b :: t2 := hp.mem_iff.mp (by simp)
        have hat2 : a ∈ t2 := by
          rcases List.mem_cons.mp hamem with h | h
          · exact absurd h hab
          · exact h
        have h1 : keyLe a b = true := (List.pairwise_cons.mp hs1).1 b hbt1
        have h2 : keyLe b a = true := (List.pairwise_cons.mp hs2).1 a hat2
        have hkey : a.1 = b.1 := strLe_antisymm _ _ h1 h2
        rcases List.nodup_cons.mp hnd with ⟨hna, _⟩
        exact hna (hkey ▸ (List.mem_map_of_mem Prod.fst hbt1))

theorem keysOf_perm {l1 l2 : List (String × JValue)} (h : List.Perm l1 l2) :
    List.Perm (keysOf l1) (keysOf l2) := h.map Prod.fst

theorem sortPairs_eq_of_perm (l1 l2 : List (String × JValue)) (hp : List.Perm l1 l2)
    (hnd : (keysOf l1).Nodup) : sortPairs l1 = sortPairs l2 := by
  refine sorted_nodup_eq _ _ ?_ (sortPairs_sorted l1) (sortPairs_sorted l2) ?_
  · exact (sortPairs_perm l1).trans (hp.trans (sortPairs_perm l2).symm)
  · exact (keysOf_perm (sortPairs_perm l1).symm).nodup hnd

/-! ## Lemmas: canonical form, well-formedness, lookups (claim C1) -/

theorem canonPairs_eq_map : ∀ l : List (String × JValue), canonPairs l = l.map canonPair := by
  intro l
  induction l with
  | nil => rfl
  | cons p t ih => simp [canonPairs, canonPair, ih]

theorem keysOf_canonPairs (l : List (String × JValue)) : keysOf (canonPairs l) = keysOf l := by
  induction l with
  | nil => rfl
  | cons p t ih => simp [canonPairs, keysOf] at ih ⊢; exact ih

theorem canon_null_iff (v : JValue) : canon v = JValue.null ↔ v = JValue.null := by
  cases v <;> simp [canon]

theorem canon_obj_elim (v : JValue) (m : List (String × JValue))
    (h : canon v = JValue.obj m) :
    ∃ l, v = JValue.obj l ∧ m = sortPairs (canonPairs l) := by
  cases v with
  | obj l =>
    simp only [canon, JValue.obj.injEq] at h
    exact ⟨l, rfl, h.symm⟩
  | null => simp [canon] at h
  | bool b => simp [canon] at h
  | num s => simp [canon] at h
  | str s => simp [canon] at h
  | arr xs => simp [canon] at h

theorem distinctKeysB_iff : ∀ l : List String, distinctKeysB l = true ↔ l.Nodup := by
  intro l
  induction l with
  | nil => simp [distinctKeysB]
  | cons k t ih =>
    simp [distinctKeysB, ih, List.nodup_cons]

theorem wfPairs_mem : ∀ l : List (String × JValue), wfPairs l = true →
    ∀ p ∈ l, wf p.2 = true := by
  intro l
  induction l with
  | nil => intro _ p hp; cases hp
  | cons q t ih =>
    intro h p hp
    simp only [wfPairs, Bool.and_eq_true] at h
    rcases List.mem_cons.mp hp with hh | hh
    · rw [hh]; exact h.1
    · exact ih h.2 p hh

theorem wf_obj_elim (l : List (String × JValue)) (h : wf (JValue.obj l) = true) :
    (keysOf l).Nodup ∧ ∀ p ∈ l, wf p.2 = true := by
  simp only [wf, Bool.and_eq_true] at h
  exact ⟨(distinctKeysB_iff _).mp h.1, wfPairs_mem l h.2⟩

theorem assocFind_mem {α : Type} : ∀ (l : List (String × α)) (k : String) (v : α),
    assocFind l k = some v → (k, v) ∈ l := by
  intro l
  induction l with
  | nil => intro k v h; simp [assocFind] at h
  | cons p t ih =>
    intro k v h
    by_cases hp : p.1 = k
    · simp only [assocFind, hp, if_true, Option.some.injEq] at h
      subst hp
      rw [← h]
      simp
    · simp only [assocFind, hp, if_false] at h
      exact List.mem_cons_of_mem p (ih k v h)

theorem getParts_nil (v : JValue) : getParts v [] = v := by
  cases v <;> rfl

theorem wf_getParts : ∀ (parts : List String) (v : JValue), wf v = true →
    wf (getParts v parts) = true := by
  intro parts
  induction parts with
  | nil => intro v h; rw [getParts_nil]; exact h
  | cons p ps ih =>
    intro v h
    cases v with
    | obj l =>
      cases hf : assocFind l p with
      | none => simp [getParts, hf, wf]
      | some w =>
        simp only [getParts, hf]
        exact ih w ((wf_obj_elim l h).2 (p, w) (assocFind_mem l p w hf))
    | null => simp [getParts, wf]
    | bool b => simp [getParts, wf]
    | num s => simp [getParts, wf]
    | str s => simp [getParts, wf]
    | arr xs => simp [getParts, wf]

theorem assocFind_perm {α : Type} (l1 l2 : List (String × α)) (hp : List.Perm l1 l2) :
    (l1.map Prod.fst).Nodup → ∀ k, assocFind l1 k = assocFind l2 k := by
  induction hp with
  | nil => intro _ _; rfl
  | cons x hp ih =>
    intro hnd k
    simp only [List.map_cons, List.nodup_cons] at hnd
    by_cases hx : x.1 = k <;> simp [assocFind, hx, ih hnd.2 k]
  | swap x y l =>
    intro hnd k
    simp only [List.map_cons, List.nodup_cons, List.mem_cons] at hnd
    by_cases hx : x.1 = k
    · by_cases hy : y.1 = k
      · exact absurd (hy.trans hx.symm) (fun hh => hnd.1 (Or.inl hh))
      · simp [assocFind, hx, hy]
    · by_cases hy : y.1 = k <;> simp [assocFind, hx, hy]
  | trans h1 h2 ih1 ih2 =>
    intro hnd k
    rw [ih1 hnd k, ih2 ((h1.map Prod.fst).nodup hnd) k]

theorem assocFind_map_canonPair : ∀ (l : List (String × JValue)) (k : String),
    assocFind (l.map canonPair) k = Option.map canon (assocFind l k) := by
  intro l
  induction l with
  | nil => intro k; rfl
  | cons p t ih =>
    intro k
    by_cases hp : p.1 = k <;> simp [assocFind, canonPair, hp, ih]

theorem lookup_canon_eq (l1 l2 : List (String × JValue))
    (h1 : (keysOf l1).Nodup) (h2 : (keysOf l2).Nodup)
    (hc : sortPairs (canonPairs l1) = sortPairs (canonPairs l2)) (k : String) :
    Option.map canon (assocFind l1 k) = Option.map canon (assocFind l2 k) := by
  rw [← assocFind_map_canonPair, ← assocFind_map_canonPair,
    ← canonPairs_eq_map, ← canonPairs_eq_map]
  have e1 : assocFind (canonPairs l1) k = assocFind (sortPairs (canonPairs l1)) k := by
    apply assocFind_perm _ _ (sortPairs_perm _).symm
    rw [show (canonPairs l1).map Prod.fst = keysOf (canonPairs l1) from rfl,
      keysOf_canonPairs]
    exact h1
  have e2 : assocFind (canonPairs l2) k = assocFind (sortPairs (canonPairs l2)) k := by
    apply assocFind_perm _ _ (sortPairs_perm _).symm
    rw [show (canonPairs l2).map Prod.fst = keysOf (canonPairs l2) from rfl,
      keysOf_canonPairs]
    exact h2
  rw [e1, e2, hc]

theorem getParts_canon : ∀ (parts : List String) (v1 v2 : JValue),
    wf v1 = true → wf v2 = true → canon v1 = canon v2 →
    canon (getParts v1 parts) = canon (getParts v2 parts) := by
  intro parts
  induction parts with
  | nil => intro v1 v2 _ _ hc; rw [getParts_nil, getParts_nil]; exact hc
  | cons p ps ih =>
    intro v1 v2 h1 h2 hc
    cases v1 with
    | obj l1 =>
      simp only [canon] at hc
      rcases canon_obj_elim v2 _ hc.symm with ⟨l2, rfl, hm⟩
      have hw1 := wf_obj_elim l1 h1
      have hw2 := wf_obj_elim l2 h2
      have hl := lookup_canon_eq l1 l2 hw1.1 hw2.1 hm p
      cases hf1 : assocFind l1 p with
      | none =>
        cases hf2 : assocFind l2 p with
        | none => simp [getParts, hf1, hf2]
        | some w2 => rw [hf1, hf2] at hl; simp at hl
      | some w1 =>
        cases hf2 : assocFind l2 p with
        | none => rw [hf1, hf2] at hl; simp at hl
        | some w2 =>
          rw [hf1, hf2] at hl
          simp only [Option.map_some'] at hl
          have hww : canon w1 = canon w2 := by injection hl
          simp only [getParts, hf1, hf2]
          exact ih w1 w2 (hw1.2 (p, w1) (assocFind_mem l1 p w1 hf1))
            (hw2.2 (p, w2) (assocFind_mem l2 p w2 hf2)) hww
    | null => cases v2 <;> simp [canon] at hc <;> rfl
    | bool b => cases v2 <;> simp [canon] at hc <;> rfl
    | num s => cases v2 <;> simp [canon] at hc <;> rfl
    | str s => cases v2 <;> simp [canon] at hc <;> rfl
    | arr xs => cases v2 <;> simp [canon] at hc <;> rfl

/-! ## Lemmas: flattening (claim C1) -/

theorem nodup_of_append_mid {α : Type} {I A B : List α} (h : (I ++ (A ++ B)).Nodup) :
    A.Nodup ∧ (I ++ A).Nodup := by
  constructor
  · exact List.Nodup.sublist
      ((List.sublist_append_left A B).trans (List.sublist_append_right I (A ++ B))) h
  · have hs : (I ++ A).Sublist ((I ++ A) ++ B) := List.sublist_append_left _ _
    rw [List.append_assoc] at hs
    exact List.Nodup.sublist hs h

theorem insertAssoc_not_mem {α : Type} (k : String) (v : α) :
    ∀ l : List (String × α), k ∉ keysOf l → insertAssoc k v l = l ++ [(k, v)] := by
  intro l
  induction l with
  | nil => intro _; rfl
  | cons p t ih =>
    intro h
    simp only [keysOf, List.map_cons, List.mem_cons] at h
    push_neg at h
    show (if p.1 = k then (k, v) :: t else p :: insertAssoc k v t) = (p :: t) ++ [(k, v)]
    rw [if_neg (fun hh => h.1 hh.symm), ih (by simpa [keysOf] using h.2)]
    rfl

theorem updAll_append {α : Type} : ∀ (news items : List (String × α)),
    (keysOf items ++ keysOf news).Nodup → updAll items news = items ++ news := by
  intro news
  induction news with
  | nil => intro items _; simp [updAll]
  | cons q t ih =>
    intro items hnd
    have hq : q.1 ∉ keysOf items := by
      intro hmem
      rcases List.nodup_append.mp hnd with ⟨_, _, hdisj⟩
      exact hdisj hmem (by simp [keysOf])
    show updAll (insertAssoc q.1 q.2 items) t = items ++ q :: t
    rw [show insertAssoc q.1 q.2 items = items ++ [(q.1, q.2)] from
      insertAssoc_not_mem _ _ items hq]
    rw [ih (items ++ [(q.1, q.2)]) ?_]
    · simp
    · rw [show keysOf (items ++ [(q.1, q.2)]) = keysOf items ++ [q.1] from by
        simp [keysOf]]
      rw [List.append_assoc]
      simpa [keysOf] using hnd

theorem keysOf_append {α : Type} (a b : List (String × α)) :
    keysOf (a ++ b) = keysOf a ++ keysOf b := by
  simp [keysOf]

theorem flatEntries_plain : ∀ entries : List (String × JValue), ∀ (parent : String)
    (items : List (String × JValue)),
    (keysOf items ++ keysOf (plainStream entries parent)).Nodup →
    flatEntries parent items entries = items ++ plainStream entries parent := by
  refine nestedListInd ?_ ?_
  · intro parent items _
    simp [flatEntries, plainStream]
  · intro k v rest hv hrest parent items hnd
    have hstream : plainStream ((k, v) :: rest) parent =
        plainEntry (joinKey parent k) v ++ plainStream rest parent := rfl
    rw [hstream] at hnd
    rw [keysOf_append] at hnd
    cases v with
    | obj l =>
      have hpe : plainEntry (joinKey parent k) (JValue.obj l) =
          plainStream l (joinKey parent k) := rfl
      rw [hpe] at hnd
      have hA : (keysOf (plainStream l (joinKey parent k))).Nodup :=
        (nodup_of_append_mid hnd).1
      have hIA : (keysOf items ++ keysOf (plainStream l (joinKey parent k))).Nodup :=
        (nodup_of_append_mid hnd).2
      have hinner : flatEntries (joinKey parent k) [] l =
          plainStream l (joinKey parent k) := by
        rw [hv l rfl (joinKey parent k) [] (by simpa [keysOf] using hA)]
        rfl
      show flatEntries parent (updAll items (flatEntries (joinKey parent k) [] l)) rest = _
      rw [hinner, updAll_append _ items hIA]
      rw [hrest parent (items ++ plainStream l (joinKey parent k)) ?_]
      · rw [hstream]
        show _ = items ++ (plainStream l (joinKey parent k) ++ plainStream rest parent)
        rw [List.append_assoc]
      · rw [keysOf_append, List.append_assoc]
        exact hnd
    | null =>
      have hnin : joinKey parent k ∉ keysOf items := by
        rcases List.nodup_append.mp hnd with ⟨_, _, hdisj⟩
        intro hmem
        exact hdisj hmem (by simp [plainEntry, keysOf])
      show flatEntries parent (insertAssoc (joinKey parent k) JValue.null items) rest = _
      rw [insertAssoc_not_mem _ _ items hnin]
      rw [hrest parent (items ++ [(joinKey parent k, JValue.null)]) ?_]
      · rw [hstream]
        show _ = items ++ ([(joinKey parent k, JValue.null)] ++ plainStream rest parent)
        rw [List.append_assoc]
      · rw [keysOf_append, List.append_assoc]
        simpa [plainEntry, keysOf] using hnd
    | bool b =>
      have hnin : joinKey parent k ∉ keysOf items := by
        rcases List.nodup_append.mp hnd with ⟨_, _, hdisj⟩
        intro hmem
        exact hdisj hmem (by simp [plainEntry, keysOf])
      show flatEntries parent (insertAssoc (joinKey parent k) (JValue.bool b) items) rest = _
      rw [insertAssoc_not_mem _ _ items hnin]
      rw [hrest parent (items ++ [(joinKey parent k, JValue.bool b)]) ?_]
      · rw [hstream]
        show _ = items ++ ([(joinKey parent k, JValue.bool b)] ++ plainStream rest parent)
        rw [List.append_assoc]
      · rw [keysOf_append, List.append_assoc]
        simpa [plainEntry, keysOf] using hnd
    | num s =>
      have hnin : joinKey parent k ∉ keysOf items := by
        rcases List.nodup_append.mp hnd with ⟨_, _, hdisj⟩
        intro hmem
        exact hdisj hmem (by simp [plainEntry, keysOf])
      show flatEntries parent (insertAssoc (joinKey parent k) (JValue.num s) items) rest = _
      rw [insertAssoc_not_mem _ _ items hnin]
      rw [hrest parent (items ++ [(joinKey parent k, JValue.num s)]) ?_]
      · rw [hstream]
        show _ = items ++ ([(joinKey parent k, JValue.num s)] ++ plainStream rest parent)
        rw [List.append_assoc]
      · rw [keysOf_append, List.append_assoc]
        simpa [plainEntry, keysOf] using hnd
    | str s =>
      have hnin : joinKey parent k ∉ keysOf items := by
        rcases List.nodup_append.mp hnd with ⟨_, _, hdisj⟩
        intro hmem
        exact hdisj hmem (by simp [plainEntry, keysOf])
      show flatEntries parent (insertAssoc (joinKey parent k) (JValue.str s) items) rest = _
      rw [insertAssoc_not_mem _ _ items hnin]
      rw [hrest parent (items ++ [(joinKey parent k, JValue.str s)]) ?_]
      · rw [hstream]
        show _ = items ++ ([(joinKey parent k, JValue.str s)] ++ plainStream rest parent)
        rw [List.append_assoc]
      · rw [keysOf_append, List.append_assoc]
        simpa [plainEntry, keysOf] using hnd
    | arr xs =>
      have hnin : joinKey parent k ∉ keysOf items := by
        rcases List.nodup_append.mp hnd with ⟨_, _, hdisj⟩
        intro hmem
        exact hdisj hmem (by simp [plainEntry, keysOf])
      show flatEntries parent (insertAssoc (joinKey parent k) (JValue.arr xs) items) rest = _
      rw [insertAssoc_not_mem _ _ items hnin]
      rw [hrest parent (items ++ [(joinKey parent k, JValue.arr xs)]) ?_]
      · rw [hstream]
        show _ = items ++ ([(joinKey parent k, JValue.arr xs)] ++ plainStream rest parent)
        rw [List.append_assoc]
      · rw [keysOf_append, List.append_assoc]
        simpa [plainEntry, keysOf] using hnd

/-- Under collision-free flattened keys, the Python `flatten_dict` equals the
pure concatenation stream. -/
theorem flatten_dict_plain (d : List (String × JValue)) (hnd : (flatKeys d).Nodup) :
    flatten_dict d = plainStream d "" := by
  rw [flatten_dict, flatEntries_plain d "" [] (by simpa [keysOf, flatKeys] using hnd)]
  rfl

/-! ## Lemmas: the flattening stream respects the canonical form (claim C1) -/

theorem plainStream_cons (x : String × JValue) (rest : List (String × JValue))
    (parent : String) :
    plainStream (x :: rest) parent =
      plainEntry (joinKey parent x.1) x.2 ++ plainStream rest parent := by
  obtain ⟨k, v⟩ := x
  rfl

theorem plainStream_perm_congr (l1 l2 : List (String × JValue))
    (hp : List.Perm l1 l2) (parent : String) :
    List.Perm (plainStream l1 parent) (plainStream l2 parent) := by
  induction hp with
  | nil => exact List.Perm.refl _
  | cons x hp ih =>
    rw [plainStream_cons, plainStream_cons]
    exact List.Perm.append_left _ ih
  | swap x y l =>
    rw [plainStream_cons, plainStream_cons, plainStream_cons, plainStream_cons]
    rw [← List.append_assoc, ← List.append_assoc]
    exact List.Perm.append_right _ (List.perm_append_comm)
  | trans h1 h2 ih1 ih2 => exact ih1.trans ih2

theorem plainStream_canonPairs : ∀ l : List (String × JValue), ∀ parent : String,
    List.Perm (plainStream (canonPairs l) parent) ((plainStream l parent).map canonPair) := by
  refine nestedListInd ?_ ?_
  · intro parent
    exact List.Perm.refl _
  · intro k v rest hv hrest parent
    have hc : canonPairs ((k, v) :: rest) = (k, canon v) :: canonPairs rest := rfl
    rw [hc, plainStream_cons, plainStream_cons]
    simp only [List.map_append]
    refine List.Perm.append ?_ (hrest parent)
    show List.Perm (plainEntry (joinKey parent k) (canon v))
      ((plainEntry (joinKey parent k) v).map canonPair)
    cases v with
    | obj l =>
      show List.Perm (plainStream (sortPairs (canonPairs l)) (joinKey parent k))
        ((plainStream l (joinKey parent k)).map canonPair)
      refine List.Perm.trans ?_ (hv l rfl (joinKey parent k))
      exact plainStream_perm_congr _ _ (sortPairs_perm _) _
    | null => exact List.Perm.refl _
    | bool b => exact List.Perm.refl _
    | num s => exact List.Perm.refl _
    | str s => exact List.Perm.refl _
    | arr xs => exact List.Perm.refl _

/-- Structurally equal dicts have flattening streams that agree as multisets
after canonicalizing the leaf values. -/
theorem plainStream_canon_perm (l1 l2 : List (String × JValue))
    (hc : canon (JValue.obj l1) = canon (JValue.obj l2)) (parent : String) :
    List.Perm ((plainStream l1 parent).map canonPair) ((plainStream l2 parent).map canonPair) := by
  simp only [canon, JValue.obj.injEq] at hc
  refine List.Perm.trans (plainStream_canonPairs l1 parent).symm ?_
  refine List.Perm.trans ?_ (plainStream_canonPairs l2 parent)
  refine List.Perm.trans
    (plainStream_perm_congr _ _ (sortPairs_perm (canonPairs l1)).symm parent) ?_
  rw [hc]
  exact plainStream_perm_congr _ _ (sortPairs_perm (canonPairs l2)) parent

/-! ## Lemmas: dict-update folds as multisets (claim C1) -/

theorem keysOf_insertAssoc_mem {α : Type} (k : String) (v : α) :
    ∀ l : List (String × α), k ∈ keysOf l → keysOf (insertAssoc k v l) = keysOf l := by
  intro l
  induction l with
  | nil => intro h; cases h
  | cons p t ih =>
    intro h
    by_cases hp : p.1 = k
    · show keysOf (if p.1 = k then (k, v) :: t else p :: insertAssoc k v t) = _
      rw [if_pos hp]
      simp [keysOf, hp]
    · show keysOf (if p.1 = k then (k, v) :: t else p :: insertAssoc k v t) = _
      rw [if_neg hp]
      have hmem : k ∈ keysOf t := by
        rcases List.mem_cons.mp h with hh | hh
        · exact absurd hh.symm hp
        · exact hh
      show p.1 :: keysOf (insertAssoc k v t) = p.1 :: keysOf t
      rw [ih hmem]

theorem keysOf_insertAssoc_nodup {α : Type} (k : String) (v : α)
    (l : List (String × α)) (h : (keysOf l).Nodup) :
    (keysOf (insertAssoc k v l)).Nodup := by
  by_cases hm : k ∈ keysOf l
  · rw [keysOf_insertAssoc_mem k v l hm]; exact h
  · rw [insertAssoc_not_mem k v l hm, keysOf_append]
    simp only [keysOf, List.map_cons, List.map_nil]
    rw [List.nodup_append]
    refine ⟨h, List.nodup_singleton k, ?_⟩
    intro x hx hxk
    rw [List.mem_singleton] at hxk
    exact hm (hxk ▸ hx)

theorem insertAssoc_mem_replace (k : String) (v : JValue) :
    ∀ b : List (String × JValue), (keysOf b).Nodup → k ∈ keysOf b →
    List.Perm (insertAssoc k v b) ((k, v) :: b.filter (fun p => !(p.1 == k))) := by
  intro b
  induction b with
  | nil => intro _ h; cases h
  | cons p t ih =>
    intro hnd hm
    have hnd' : (p.1 :: keysOf t).Nodup := hnd
    rcases List.nodup_cons.mp hnd' with ⟨hp1, hndt⟩
    by_cases hp : p.1 = k
    · show List.Perm (if p.1 = k then (k, v) :: t else p :: insertAssoc k v t) _
      rw [if_pos hp]
      have hk : k ∉ keysOf t := hp ▸ hp1
      have hfil : t.filter (fun q => !(q.1 == k)) = t := by
        refine List.filter_eq_self.mpr ?_
        intro q hq
        have hqk : q.1 ≠ k := fun hh => hk (hh ▸ List.mem_map_of_mem Prod.fst hq)
        simp [hqk]
      have hpfalse : (!(p.1 == k)) = false := by simp [hp]
      rw [List.filter_cons, hpfalse]
      simp only [if_false, hfil, Bool.false_eq_true]
      exact List.Perm.refl _
    · show List.Perm (if p.1 = k then (k, v) :: t else p :: insertAssoc k v t) _
      rw [if_neg hp]
      have hmt : k ∈ keysOf t := by
        rcases List.mem_cons.mp hm with hh | hh
        · exact absurd hh.symm hp
        · exact hh
      have hptrue : (!(p.1 == k)) = true := by simp [hp]
      rw [List.filter_cons, hptrue]
      simp only [if_true]
      exact ((ih hndt hmt).cons p).trans (List.Perm.swap (k, v) p _)

/-- A dict-update fold is, as a multiset, the base without the overwritten
keys followed by the new entries (for duplicate-free key lists). -/
theorem updAll_perm : ∀ (items base : List (String × JValue)),
    (keysOf items).Nodup → (keysOf base).Nodup →
    List.Perm (updAll base items)
      (base.filter (fun p => !(decide (p.1 ∈ keysOf items))) ++ items) := by
  intro items
  induction items with
  | nil =>
    intro base _ _
    have : base.filter (fun p => !(decide (p.1 ∈ keysOf ([] : List (String × JValue))))) =
        base := List.filter_eq_self.mpr (fun a _ => rfl)
    rw [this]
    simp [updAll]
  | cons q t ih =>
    intro base hndi hndb
    obtain ⟨qk, qv⟩ := q
    have hndi' : (qk :: keysOf t).Nodup := hndi
    rcases List.nodup_cons.mp hndi' with ⟨hqt, hndt⟩
    have hstep : updAll base ((qk, qv) :: t) = updAll (insertAssoc qk qv base) t := rfl
    rw [hstep]
    have hb' : (keysOf (insertAssoc qk qv base)).Nodup :=
      keysOf_insertAssoc_nodup qk qv base hndb
    refine (ih (insertAssoc qk qv base) hndt hb').trans ?_
    by_cases hmem : qk ∈ keysOf base
    · have hrep := insertAssoc_mem_replace qk qv base hndb hmem
      refine List.Perm.trans (List.Perm.append_right t (hrep.filter _)) ?_
      rw [List.filter_cons]
      have hq : (!(decide (qk ∈ keysOf t))) = true := by simp [hqt]
      rw [hq]
      simp only [if_true]
      have hff : (base.filter (fun p => !(p.1 == qk))).filter
          (fun p => !(decide (p.1 ∈ keysOf t))) =
          base.filter (fun p => !(decide (p.1 ∈ qk :: keysOf t))) := by
        rw [List.filter_filter]
        refine List.filter_congr ?_
        intro p _
        by_cases h1 : p.1 = qk <;> by_cases h2 : p.1 ∈ keysOf t <;>
          simp [h1, h2, List.mem_cons]
      rw [hff]
      show List.Perm ((qk, qv) :: (_ ++ t)) (_ ++ (qk, qv) :: t)
      exact List.perm_middle.symm
    · rw [insertAssoc_not_mem qk qv base hmem, List.filter_append, List.filter_cons]
      have hq : (!(decide (qk ∈ keysOf t))) = true := by simp [hqt]
      rw [hq]
      simp only [if_true, List.filter_nil]
      have hfc : base.filter (fun p => !(decide (p.1 ∈ keysOf t))) =
          base.filter (fun p => !(decide (p.1 ∈ qk :: keysOf t))) := by
        refine List.filter_congr ?_
        intro p hp
        have hpq : p.1 ≠ qk := fun hh => hmem (hh ▸ List.mem_map_of_mem Prod.fst hp)
        by_cases h2 : p.1 ∈ keysOf t <;> simp [hpq, h2, List.mem_cons]
      rw [hfc]
      rw [List.append_assoc]
      exact List.Perm.refl _

theorem keysOf_map_canonPair (l : List (String × JValue)) :
    keysOf (l.map canonPair) = keysOf l := by
  induction l with
  | nil => rfl
  | cons p t ih => simp [keysOf, canonPair, ih]

theorem keysOf_map_canonPair_var (l : List (String × JValue)) :
    (l.map canonPair).map Prod.fst = l.map Prod.fst :=
  keysOf_map_canonPair l

theorem map_canonPair_filter_key (P : String → Bool) :
    ∀ l : List (String × JValue),
    (l.filter (fun p => P p.1)).map canonPair = (l.map canonPair).filter (fun p => P p.1) := by
  intro l
  induction l with
  | nil => rfl
  | cons p t ih =>
    by_cases hp : P p.1 <;> simp [List.filter_cons, canonPair, hp, ih]

theorem updAll_canon (b1 b2 i1 i2 : List (String × JValue))
    (hb1 : (keysOf b1).Nodup) (hb2 : (keysOf b2).Nodup) (hi1 : (keysOf i1).Nodup)
    (hpb : List.Perm (b1.map canonPair) (b2.map canonPair))
    (hpi : List.Perm (i1.map canonPair) (i2.map canonPair)) :
    List.Perm ((updAll b1 i1).map canonPair) ((updAll b2 i2).map canonPair) ∧
    (keysOf (updAll b1 i1)).Nodup := by
  have hkeys : List.Perm (keysOf i1) (keysOf i2) := by
    have hh := hpi.map Prod.fst
    rwa [keysOf_map_canonPair_var, keysOf_map_canonPair_var] at hh
  have hi2 : (keysOf i2).Nodup := hkeys.nodup hi1
  have h1 := updAll_perm i1 b1 hi1 hb1
  have h2 := updAll_perm i2 b2 hi2 hb2
  constructor
  · refine ((h1.map canonPair).trans ?_).trans (h2.map canonPair).symm
    rw [List.map_append, List.map_append]
    refine List.Perm.append ?_ hpi
    rw [map_canonPair_filter_key (fun x => !(decide (x ∈ keysOf i1))) b1,
      map_canonPair_filter_key (fun x => !(decide (x ∈ keysOf i2))) b2]
    refine List.Perm.trans (hpb.filter _)
      (List.Perm.of_eq (List.filter_congr ?_))
    intro p _
    have hm : (p.1 ∈ keysOf i1) ↔ (p.1 ∈ keysOf i2) := hkeys.mem_iff
    rw [decide_eq_decide.mpr hm]
  · refine ((keysOf_perm h1).symm).nodup ?_
    rw [keysOf_append, List.nodup_append]
    refine ⟨List.Nodup.sublist ((List.filter_sublist _).map Prod.fst) hb1, hi1, ?_⟩
    intro x hx hxi
    rcases List.mem_map.mp hx with ⟨p, hpmem, rfl⟩
    rcases List.mem_filter.mp hpmem with ⟨_, hP⟩
    simp at hP
    exact hP hxi

theorem insertAssoc_mem_sub {α : Type} (k : String) (v : α) :
    ∀ (l : List (String × α)) (p : String × α),
    p ∈ insertAssoc k v l → p = (k, v) ∨ p ∈ l := by
  intro l
  induction l with
  | nil => intro p hp; simpa [insertAssoc] using hp
  | cons q t ih =>
    intro p hp
    by_cases hq : q.1 = k
    · rw [show insertAssoc k v (q :: t) = (k, v) :: t from by
        show (if q.1 = k then (k, v) :: t else q :: insertAssoc k v t) = _
        rw [if_pos hq]] at hp
      rcases List.mem_cons.mp hp with hh | hh
      · exact Or.inl hh
      · exact Or.inr (List.mem_cons_of_mem q hh)
    · rw [show insertAssoc k v (q :: t) = q :: insertAssoc k v t from by
        show (if q.1 = k then (k, v) :: t else q :: insertAssoc k v t) = _
        rw [if_neg hq]] at hp
      rcases List.mem_cons.mp hp with hh | hh
      · exact Or.inr (hh ▸ List.mem_cons_self q t)
      · rcases ih p hh with hh2 | hh2
        · exact Or.inl hh2
        · exact Or.inr (List.mem_cons_of_mem q hh2)

theorem map_canonPair_insert (k : String) (v : JValue) :
    ∀ s : List (String × JValue),
    (insertAssoc k v s).map canonPair = insertAssoc k (canon v) (s.map canonPair) := by
  intro s
  induction s with
  | nil => rfl
  | cons p t ih =>
    simp only [insertAssoc, List.map_cons, canonPair]
    by_cases hp : p.1 = k
    · simp [hp, canonPair]
    · simp [hp, ih, canonPair]

theorem sdSet_innerOf (k suf : String) (v : JValue) (s : List (String × JValue)) :
    sdSet k suf v s = insertAssoc k (JValue.obj (insertAssoc suf v (innerOf k s))) s := by
  unfold sdSet innerOf
  cases h : assocFind s k with
  | none => rfl
  | some w => cases w <;> rfl

theorem innerOf_insert_self (k : String) (il : List (String × JValue))
    (s : List (String × JValue)) :
    innerOf k (insertAssoc k (JValue.obj il) s) = il := by
  unfold innerOf
  rw [assocFind_insert_self]

theorem insertAssoc_insertAssoc {α : Type} (k : String) (v w : α) :
    ∀ s : List (String × α), insertAssoc k v (insertAssoc k w s) = insertAssoc k v s := by
  intro s
  induction s with
  | nil => simp [insertAssoc]
  | cons p t ih =>
    simp only [insertAssoc]
    by_cases hp : p.1 = k
    · simp [hp, insertAssoc]
    · simp [hp, insertAssoc, ih]

theorem sdFold_char (k : String) :
    ∀ (items s : List (String × JValue)),
    items.foldl (fun a p => if strStarts k p.1 then sdSet k (sufAfter k p.1) p.2 a else a) s =
      (if (items.filter (fun p => strStarts k p.1)) = [] then s
       else insertAssoc k
         (JValue.obj (updAll (innerOf k s)
           ((items.filter (fun p => strStarts k p.1)).map (fun p => (sufAfter k p.1, p.2))))) s) := by
  intro items
  induction items with
  | nil => intro s; simp
  | cons q t ih =>
    intro s
    rw [List.foldl_cons, List.filter_cons]
    by_cases hq : strStarts k q.1
    · rw [if_pos hq, if_pos hq, ih (sdSet k (sufAfter k q.1) q.2 s),
        if_neg (List.cons_ne_nil _ _)]
      by_cases ht : t.filter (fun p => strStarts k p.1) = []
      · rw [if_pos ht, ht, sdSet_innerOf]
        rfl
      · rw [if_neg ht, sdSet_innerOf, innerOf_insert_self, insertAssoc_insertAssoc]
        rfl
    · rw [if_neg hq, if_neg hq]
      exact ih s

theorem summary_step_eq_insert (cfgd acc : List (String × JValue)) (k : String)
    (h : get_by_dot cfgd k ≠ JValue.null) :
    summary_step cfgd acc k = insertAssoc k (get_by_dot cfgd k) acc := by
  unfold summary_step
  cases hv : get_by_dot cfgd k with
  | null => exact absurd hv h
  | bool b => rfl
  | num s => rfl
  | str s => rfl
  | arr xs => rfl
  | obj l => rfl

theorem innerOf_canon (k : String) (s1 s2 : List (String × JValue))
    (h : s1.map canonPair = s2.map canonPair)
    (hs1 : ∀ p ∈ s1, ∀ il, p.2 = JValue.obj il → (keysOf il).Nodup)
    (hs2 : ∀ p ∈ s2, ∀ il, p.2 = JValue.obj il → (keysOf il).Nodup) :
    List.Perm ((innerOf k s1).map canonPair) ((innerOf k s2).map canonPair) ∧
    (keysOf (innerOf k s1)).Nodup ∧ (keysOf (innerOf k s2)).Nodup := by
  have hf : Option.map canon (assocFind s1 k) = Option.map canon (assocFind s2 k) := by
    rw [← assocFind_map_canonPair, ← assocFind_map_canonPair, h]
  cases h1 : assocFind s1 k with
  | none =>
    cases h2 : assocFind s2 k with
    | none =>
      simp only [innerOf, h1, h2]
      exact ⟨List.Perm.refl _, List.nodup_nil, List.nodup_nil⟩
    | some v2 => rw [h1, h2] at hf; simp at hf
  | some v1 =>
    cases h2 : assocFind s2 k with
    | none => rw [h1, h2] at hf; simp at hf
    | some v2 =>
      rw [h1, h2] at hf
      simp only [Option.map_some'] at hf
      have hcv : canon v1 = canon v2 := Option.some.inj hf
      cases v1 with
      | obj il1 =>
        have hobj : canon v2 = JValue.obj (sortPairs (canonPairs il1)) := by
          rw [← hcv]; rfl
        rcases canon_obj_elim v2 _ hobj with ⟨il2, rfl, hm⟩
        simp only [innerOf, h1, h2]
        refine ⟨?_, hs1 (k, JValue.obj il1) (assocFind_mem s1 k _ h1) il1 rfl,
          hs2 (k, JValue.obj il2) (assocFind_mem s2 k _ h2) il2 rfl⟩
        rw [← canonPairs_eq_map, ← canonPairs_eq_map]
        refine ((sortPairs_perm (canonPairs il1)).symm.trans ?_)
        rw [hm]
        exact sortPairs_perm (canonPairs il2)
      | null =>
        cases v2 <;> simp only [innerOf, h1, h2] <;>
          first
            | exact ⟨List.Perm.refl _, List.nodup_nil, List.nodup_nil⟩
            | (simp [canon] at hcv)
      | bool b =>
        cases v2 <;> simp only [innerOf, h1, h2] <;>
          first
            | exact ⟨List.Perm.refl _, List.nodup_nil, List.nodup_nil⟩
            | (simp [canon] at hcv)
      | num s =>
        cases v2 <;> simp only [innerOf, h1, h2] <;>
          first
            | exact ⟨List.Perm.refl _, List.nodup_nil, List.nodup_nil⟩
            | (simp [canon] at hcv)
      | str s =>
        cases v2 <;> simp only [innerOf, h1, h2] <;>
          first
            | exact ⟨List.Perm.refl _, List.nodup_nil, List.nodup_nil⟩
            | (simp [canon] at hcv)
      | arr xs =>
        cases v2 <;> simp only [innerOf, h1, h2] <;>
          first
            | exact ⟨List.Perm.refl _, List.nodup_nil, List.nodup_nil⟩
            | (simp [canon] at hcv)

theorem summary_step_inv (cfg1 cfg2 : List (String × JValue)) (k : String)
    (hw1 : wf (JValue.obj cfg1) = true) (hw2 : wf (JValue.obj cfg2) = true)
    (hc : canon (JValue.obj cfg1) = canon (JValue.obj cfg2))
    (hnd1 : (flatKeys cfg1).Nodup) (hnd2 : (flatKeys cfg2).Nodup)
    (hsf1 : (sufKeys cfg1 k).Nodup)
    (s1 s2 : List (String × JValue)) (hinv : SummInv s1 s2) :
    SummInv (summary_step cfg1 s1 k) (summary_step cfg2 s2 k) := by
  obtain ⟨heq, hn1, hn2, hin1, hin2⟩ := hinv
  have hg : canon (get_by_dot cfg1 k) = canon (get_by_dot cfg2 k) :=
    getParts_canon (splitDot k) _ _ hw1 hw2 hc
  by_cases hnull : get_by_dot cfg1 k = JValue.null
  · have hnull2 : get_by_dot cfg2 k = JValue.null := by
      rw [hnull] at hg
      exact (canon_null_iff _).mp
        (hg.symm.trans (show canon JValue.null = JValue.null from rfl))
    have hstep1 : summary_step cfg1 s1 k =
        (flatten_dict cfg1).foldl
          (fun a p => if strStarts k p.1 then sdSet k (sufAfter k p.1) p.2 a else a) s1 := by
      unfold summary_step; rw [hnull]
    have hstep2 : summary_step cfg2 s2 k =
        (flatten_dict cfg2).foldl
          (fun a p => if strStarts k p.1 then sdSet k (sufAfter k p.1) p.2 a else a) s2 := by
      unfold summary_step; rw [hnull2]
    rw [hstep1, hstep2, flatten_dict_plain cfg1 hnd1, flatten_dict_plain cfg2 hnd2,
      sdFold_char, sdFold_char]
    set m1 := (plainStream cfg1 "").filter (fun p => strStarts k p.1) with hm1
    set m2 := (plainStream cfg2 "").filter (fun p => strStarts k p.1) with hm2
    have hps := plainStream_canon_perm cfg1 cfg2 hc ""
    have hmp : List.Perm (m1.map canonPair) (m2.map canonPair) := by
      rw [hm1, hm2, map_canonPair_filter_key (fun x => strStarts k x),
        map_canonPair_filter_key (fun x => strStarts k x)]
      exact hps.filter _
    have hiff : m1 = [] ↔ m2 = [] := by
      constructor
      · intro hh
        rw [hh] at hmp
        cases hcase : m2 with
        | nil => rfl
        | cons q t => rw [hcase] at hmp; simp at hmp
      · intro hh
        rw [hh] at hmp
        cases hcase : m1 with
        | nil => rfl
        | cons q t => rw [hcase] at hmp; simp at hmp
    by_cases hme : m1 = []
    · rw [if_pos hme, if_pos (hiff.mp hme)]
      exact ⟨heq, hn1, hn2, hin1, hin2⟩
    · rw [if_neg hme, if_neg (fun hh => hme (hiff.mpr hh))]
      obtain ⟨hip, hind1, hind2⟩ := innerOf_canon k s1 s2 heq hin1 hin2
      have hspc : ∀ (m : List (String × JValue)),
          (m.map (fun p => (sufAfter k p.1, p.2))).map canonPair
            = (m.map canonPair).map (fun p => (sufAfter k p.1, p.2)) := by
        intro m
        induction m with
        | nil => rfl
        | cons p t ih => simp [canonPair, ih]
      have hsp : List.Perm
          ((m1.map (fun p => (sufAfter k p.1, p.2))).map canonPair)
          ((m2.map (fun p => (sufAfter k p.1, p.2))).map canonPair) := by
        rw [hspc, hspc]
        exact hmp.map _
      have hspk1 : (keysOf (m1.map (fun p => (sufAfter k p.1, p.2)))).Nodup := by
        have he : keysOf (m1.map (fun p => (sufAfter k p.1, p.2)))
            = m1.map (fun p => sufAfter k p.1) := by
          simp [keysOf, List.map_map]
        rw [he, hm1]
        exact hsf1
      obtain ⟨hupP, hupN1⟩ := updAll_canon (innerOf k s1) (innerOf k s2)
        (m1.map (fun p => (sufAfter k p.1, p.2))) (m2.map (fun p => (sufAfter k p.1, p.2)))
        hind1 hind2 hspk1 hip hsp
      have hkeysP : List.Perm
          (keysOf (updAll (innerOf k s1) (m1.map (fun p => (sufAfter k p.1, p.2)))))
          (keysOf (updAll (innerOf k s2) (m2.map (fun p => (sufAfter k p.1, p.2))))) := by
        have hh := hupP.map Prod.fst
        rwa [keysOf_map_canonPair_var, keysOf_map_canonPair_var] at hh
      have hupN2 := hkeysP.nodup hupN1
      have hobje : canon (JValue.obj (updAll (innerOf k s1)
            (m1.map (fun p => (sufAfter k p.1, p.2)))))
          = canon (JValue.obj (updAll (innerOf k s2)
            (m2.map (fun p => (sufAfter k p.1, p.2))))) := by
        show JValue.obj (sortPairs (canonPairs _)) = JValue.obj (sortPairs (canonPairs _))
        rw [canonPairs_eq_map, canonPairs_eq_map]
        exact congrArg JValue.obj
          (sortPairs_eq_of_perm _ _ hupP (by rwa [keysOf_map_canonPair]))
      refine ⟨?_, keysOf_insertAssoc_nodup _ _ _ hn1, keysOf_insertAssoc_nodup _ _ _ hn2,
        ?_, ?_⟩
      · rw [map_canonPair_insert, map_canonPair_insert, heq, hobje]
      · intro p hp il hil
        rcases insertAssoc_mem_sub _ _ _ _ hp with rfl | hp2
        · have hil2 := JValue.obj.inj hil
          rw [← hil2]
          exact hupN1
        · exact hin1 p hp2 il hil
      · intro p hp il hil
        rcases insertAssoc_mem_sub _ _ _ _ hp with rfl | hp2
        · have hil2 := JValue.obj.inj hil
          rw [← hil2]
          exact hupN2
        · exact hin2 p hp2 il hil
  · have hnull2 : get_by_dot cfg2 k ≠ JValue.null := by
      intro hh
      rw [hh] at hg
      exact hnull ((canon_null_iff _).mp
        (hg.trans (show canon JValue.null = JValue.null from rfl)))
    rw [summary_step_eq_insert cfg1 s1 k hnull, summary_step_eq_insert cfg2 s2 k hnull2]
    refine ⟨?_, keysOf_insertAssoc_nodup _ _ _ hn1, keysOf_insertAssoc_nodup _ _ _ hn2,
      ?_, ?_⟩
    · rw [map_canonPair_insert, map_canonPair_insert, heq, hg]
    · intro p hp il hil
      rcases insertAssoc_mem_sub _ _ _ _ hp with rfl | hp2
      · have hwg : wf (get_by_dot cfg1 k) = true := wf_getParts (splitDot k) _ hw1
        have hil2 : get_by_dot cfg1 k = JValue.obj il := hil
        rw [hil2] at hwg
        exact (wf_obj_elim il hwg).1
      · exact hin1 p hp2 il hil
    · intro p hp il hil
      rcases insertAssoc_mem_sub _ _ _ _ hp with rfl | hp2
      · have hwg : wf (get_by_dot cfg2 k) = true := wf_getParts (splitDot k) _ hw2
        have hil2 : get_by_dot cfg2 k = JValue.obj il := hil
        rw [hil2] at hwg
        exact (wf_obj_elim il hwg).1
      · exact hin2 p hp2 il hil

theorem summary_fold_inv (cfg1 cfg2 : List (String × JValue))
    (hw1 : wf (JValue.obj cfg1) = true) (hw2 : wf (JValue.obj cfg2) = true)
    (hc : canon (JValue.obj cfg1) = canon (JValue.obj cfg2))
    (hnd1 : (flatKeys cfg1).Nodup) (hnd2 : (flatKeys cfg2).Nodup) :
    ∀ keep : List String, (∀ k ∈ keep, (sufKeys cfg1 k).Nodup) →
    ∀ s1 s2 : List (String × JValue), SummInv s1 s2 →
    SummInv (keep.foldl (summary_step cfg1) s1) (keep.foldl (summary_step cfg2) s2) := by
  intro keep
  induction keep with
  | nil => intro _ s1 s2 h; exact h
  | cons k t ih =>
    intro hsf s1 s2 h
    rw [List.foldl_cons, List.foldl_cons]
    exact ih (fun k2 hk2 => hsf k2 (List.mem_cons_of_mem _ hk2)) _ _
      (summary_step_inv cfg1 cfg2 k hw1 hw2 hc hnd1 hnd2
        (hsf k (List.mem_cons_self _ _)) s1 s2 h)

/-- C1 (amended): in hash mode the derived experiment name is invariant under
the key insertion order of the configuration, provided the flattened keys of
each config are pairwise distinct and, for every keep path, the suffixes of the
flattened keys matching that path are pairwise distinct.  (Without the
distinctness provisos the claim is false: see the counterexample, where a
literal dotted key collides with a nested path and `flatten_dict` collapses the
two insertion orders to different survivors.)  Taking `cfg1 = cfg2` gives the
second half of the claim: identical summaries always produce the identical
`exp_<hash>` name, for any contexts. -/
theorem claim_C1 (cfg1 cfg2 : List (String × JValue)) (keep : List String)
    (hash_length : Nat) (ctx1 ctx2 : NameCtx)
    (hw1 : wf (JValue.obj cfg1) = true) (hw2 : wf (JValue.obj cfg2) = true)
    (hc : canon (JValue.obj cfg1) = canon (JValue.obj cfg2))
    (hnd1 : (flatKeys cfg1).Nodup) (hnd2 : (flatKeys cfg2).Nodup)
    (hsf : ∀ k ∈ keep, (sufKeys cfg1 k).Nodup) :
    generate_exp_name "hash" hash_length ctx1 (config_summary cfg1 keep)
      = generate_exp_name "hash" hash_length ctx2 (config_summary cfg2 keep) := by
  have hcs : canon (config_summary cfg1 keep) = canon (config_summary cfg2 keep) := by
    cases keep with
    | nil => exact hc
    | cons k t =>
      have hinv := summary_fold_inv cfg1 cfg2 hw1 hw2 hc hnd1 hnd2 (k :: t) hsf [] []
        ⟨rfl, List.nodup_nil, List.nodup_nil,
          fun p hp => absurd hp (List.not_mem_nil p),
          fun p hp => absurd hp (List.not_mem_nil p)⟩
      show JValue.obj (sortPairs (canonPairs _)) = JValue.obj (sortPairs (canonPairs _))
      rw [canonPairs_eq_map, canonPairs_eq_map, hinv.1]
  have hmode : ∀ (ctx : NameCtx) (S : JValue),
      generate_exp_name "hash" hash_length ctx S
        = Except.ok ("exp_" ++ stable_hash S hash_length) := by
    intro ctx S
    unfold generate_exp_name
    rw [if_neg (by decide), if_neg (by decide), if_pos rfl]
  rw [hmode, hmode]
  unfold stable_hash dumps_sorted
  rw [hcs]

/-- Concrete instantiation of the amended C1: the two insertion orders of
`{"a": 1, "b": {"c": 2}}` with keep path `b` produce the identical
hash-mode name, even with different sequential/timestamp/uuid contexts. -/
theorem claim_C1_witness :
    generate_exp_name "hash" 8 (NameCtx.mk [] "" "")
        (config_summary [("a", JValue.num "1"), ("b", JValue.obj [("c", JValue.num "2")])]
          ["b"])
      = generate_exp_name "hash" 8 (NameCtx.mk ["exp_0001"] "20240101" "deadbeef")
        (config_summary [("b", JValue.obj [("c", JValue.num "2")]), ("a", JValue.num "1")]
          ["b"]) :=
  claim_C1 [("a", JValue.num "1"), ("b", JValue.obj [("c", JValue.num "2")])]
    [("b", JValue.obj [("c", JValue.num "2")]), ("a", JValue.num "1")] ["b"] 8
    (NameCtx.mk [] "" "") (NameCtx.mk ["exp_0001"] "20240101" "deadbeef")
    (by decide) (by decide) (by decide) (by decide) (by decide) (by decide)

end Expman


